import Mathlib

/-! Buffer: a schema-implicit binary packing engine.

Shallow embedding of `src/Buffer.h` (class `Buffer::Buffer`) and verification of its
size calculator (`getSizeSimple`, `getSize`), encoder (`handleArg`) and decoder
(`retrieveArg`, `GetArguments`, `GetArgumentsAndSize`).

Modelling conventions.
* A `char` cell of memory is a `Byte` (its unsigned value, `0..255`).
* A value of an integer type is the mathematical integer it denotes (`Int`), tagged with
  its static C++ type; `static_cast<char>` keeps the value modulo `256`.
* The `int` intermediate of the decoder is held as its 32-bit two's complement pattern
  (`Nat`, reduced `% 2 ^ 32` where a shift can overflow).
* `size_t` arithmetic is unbounded `Nat` (the sizes involved are far below `2 ^ 64`).
* The class members `size` and `data` are threaded explicitly; a write or read outside the
  region `data` points to has no defined behaviour and is `none`.
-/

set_option linter.dupNamespace false
set_option maxRecDepth 8192

namespace Buffer

/-- One `char` of memory, as its unsigned value. -/
abbrev Byte := Fin 256

/-- The integer types accepted by the scalar branches (`sizeof(T)` is 1, 2 or 4). -/
inductive ScalarTy where
  | int8 | uint8 | int16 | uint16 | int32 | uint32
  deriving DecidableEq

namespace ScalarTy

/-- The value of `sizeof(T)`. -/
def sizeof : ScalarTy → Nat
  | int8 => 1
  | uint8 => 1
  | int16 => 2
  | uint16 => 2
  | int32 => 4
  | uint32 => 4

/-- Whether `T` is a signed type. -/
def signed : ScalarTy → Bool
  | int8 => true
  | uint8 => false
  | int16 => true
  | uint16 => false
  | int32 => true
  | uint32 => false

/-- Smallest value of the type. -/
def minVal (t : ScalarTy) : Int :=
  if t.signed then -(2 ^ (8 * t.sizeof - 1) : Int) else 0

/-- Largest value of the type. -/
def maxVal (t : ScalarTy) : Int :=
  if t.signed then (2 ^ (8 * t.sizeof - 1) : Int) - 1 else (2 ^ (8 * t.sizeof) : Int) - 1

/-- The value `v` is representable in the type. -/
def inRange (t : ScalarTy) (v : Int) : Bool :=
  decide (t.minVal ≤ v) && decide (v ≤ t.maxVal)

/-- The unsigned (two's complement) representation of `v` in the type. -/
def unsignedRep (t : ScalarTy) (v : Int) : Nat :=
  (v % (2 ^ (8 * t.sizeof) : Int)).toNat

end ScalarTy

/-- The static types the codec dispatches on (`isVector`, `isTuple`, `isString`,
`isOneByteVariable`, `isTwoBytesVariable`, `isFourBytesVariable`). -/
inductive Shape where
  | scalar (t : ScalarTy)
  | text
  | seq (elem : Shape)
  | tuple (slots : List Shape)

/-- Run-time values: an integer of a given type, a `std::string` (its bytes), a
`std::vector` (its elements) or a `std::tuple` (its slots). -/
inductive Value where
  | scalar (t : ScalarTy) (v : Int)
  | text (s : List Byte)
  | seq (xs : List Value)
  | tuple (xs : List Value)

mutual
/-- The value has the given static type: scalars are in the range of their type, all
elements of a vector have the element type, a tuple has one value per slot. -/
def Value.hasShape : Value → Shape → Bool
  | .scalar t v, .scalar t' => decide (t = t') && t.inRange v
  | .text _, .text => true
  | .seq xs, .seq e => Value.allHaveShape xs e
  | .tuple xs, .tuple ss => Value.haveShapes xs ss
  | _, _ => false
/-- Every element of the list has the shape `e`. -/
def Value.allHaveShape : List Value → Shape → Bool
  | [], _ => true
  | x :: xs, e => Value.hasShape x e && Value.allHaveShape xs e
/-- The list of values matches the list of slot shapes, one by one. -/
def Value.haveShapes : List Value → List Shape → Bool
  | [], [] => true
  | x :: xs, s :: ss => Value.hasShape x s && Value.haveShapes xs ss
  | _, _ => false
end

mutual
/-- Every text in the value has at most 255 bytes and every sequence at most 255
elements (the limits of the one-byte prefixes). -/
def Value.withinLimits : Value → Bool
  | .scalar _ _ => true
  | .text s => decide (s.length ≤ 255)
  | .seq xs => decide (xs.length ≤ 255) && Value.allWithinLimits xs
  | .tuple xs => Value.allWithinLimits xs
/-- Every value of the list is within the limits. -/
def Value.allWithinLimits : List Value → Bool
  | [] => true
  | x :: xs => Value.withinLimits x && Value.allWithinLimits xs
end

mutual
/-- No text in the value has 256 bytes or more (sequences are unrestricted). -/
def Value.textsShort : Value → Bool
  | .scalar _ _ => true
  | .text s => decide (s.length ≤ 255)
  | .seq xs => Value.allTextsShort xs
  | .tuple xs => Value.allTextsShort xs
/-- No text in any value of the list has 256 bytes or more. -/
def Value.allTextsShort : List Value → Bool
  | [] => true
  | x :: xs => Value.textsShort x && Value.allTextsShort xs
end

/-! ## Size calculator -/

mutual
/-- The member `Buffer::getSizeSimple`. The vector loop `dataSize += getSizeSimple(elem)` and the
tuple fold `((dataSize += getSizeSimple(args)), ...)` are the sum `getSize` below. -/
def getSizeSimple : Value → Nat
  | .seq xs => 1 + getSize xs
  | .tuple xs => getSize xs
  | .text s => 1 + s.length
  | .scalar t _ => t.sizeof
/-- The member `Buffer::getSize`: `size = 0; ((size += getSizeSimple(args)), ...)`. -/
def getSize : List Value → Nat
  | [] => 0
  | x :: xs => getSizeSimple x + getSize xs
end

/-! ## Encoder -/

/-- The object state of `class Buffer`: the member `size` and the region `data` points
to (as long as what was allocated). -/
structure Buffer where
  size : Nat
  data : List Byte
  deriving DecidableEq

/-- The conversion `static_cast<char>(x)`: the byte holding `x` modulo 256. -/
def castChar (x : Int) : Byte :=
  ⟨(x % 256).toNat, by omega⟩

/-- The statement `data[size++] = c`. -/
def Buffer.put (b : Buffer) (c : Byte) : Option Buffer :=
  if b.size < b.data.length then
    some { size := b.size + 1, data := b.data.set b.size c }
  else none

/-- The call `memcpy(dst + pos, src, n)` with `n` the length of `src`. -/
def memcpy (dst : List Byte) (pos : Nat) (src : List Byte) : Option (List Byte) :=
  if pos + src.length ≤ dst.length then
    some (dst.take pos ++ src ++ dst.drop (pos + src.length))
  else none

/-- The scalar branches of `handleArg`, selected by `sizeof(First)`. -/
def handleScalar (t : ScalarTy) (first : Int) (b : Buffer) : Option Buffer :=
  match t.sizeof with
  | 1 => b.put (castChar first)
  | 2 =>
    (b.put (castChar (Int.land first 0xFF))).bind fun b =>
    b.put (castChar (Int.land (first >>> (8 : Nat)) 0xFF))
  | _ =>
    (b.put (castChar (Int.land first 0xFF))).bind fun b =>
    (b.put (castChar (Int.land (first >>> (8 : Nat)) 0xFF))).bind fun b =>
    (b.put (castChar (Int.land (first >>> (16 : Nat)) 0xFF))).bind fun b =>
    b.put (castChar (Int.land (first >>> (24 : Nat)) 0xFF))

/-- The string branch of `handleArg`. -/
def handleString (first : List Byte) (b : Buffer) : Option Buffer :=
  let strSize := first.length % 256
  (b.put (castChar strSize)).bind fun b =>
  (memcpy b.data b.size first).bind fun d =>
  some { size := b.size + strSize, data := d }

mutual
/-- The branch of `handleArg` taken for the argument `first` (before `handleArg(rest...)`).
The vector loop `for (d : first) handleArg(d)` and the tuple fold `(handleArg(args), ...)`
both run the one-argument `handleArg` on each item in order, which is `handleArg` below on
the list of items. -/
def handleFirst : Value → Buffer → Option Buffer
  | .seq xs, b => (b.put (castChar xs.length)).bind fun b => handleArg xs b
  | .tuple xs, b => handleArg xs b
  | .text s, b => handleString s b
  | .scalar t v, b => handleScalar t v b
/-- The member `Buffer::handleArg(first, rest...)`, with `handleArg()` doing nothing. -/
def handleArg : List Value → Buffer → Option Buffer
  | [], b => some b
  | first :: rest, b => (handleFirst first b).bind fun b => handleArg rest b
end

/-- The constructor `Buffer(const Ts&... Args)`: `data = new char[getSize(Args...)]`, whose
cells start with the indeterminate contents `heap`, then `handleArg(Args...)`. -/
def Buffer.construct (heap : Nat → Byte) (args : List Value) : Option Buffer :=
  handleArg args { size := 0, data := (List.range (getSize args)).map heap }

/-- The accessor `Buffer::GetSize`. -/
def Buffer.GetSize (b : Buffer) : Nat := b.size

/-- The accessor `Buffer::GetData`. -/
def Buffer.GetData (b : Buffer) : List Byte := b.data

/-- The accessor `Buffer::GetDataAsString`: `std::string(data, size)`. -/
def Buffer.GetDataAsString (b : Buffer) : List Byte := b.data.take b.size

/-! ## Decoder -/

/-- The conversion `static_cast<T>(x)` for an `int` (or `unsigned char`) `x` given by its bit pattern. -/
def staticCast (t : ScalarTy) (bits : Nat) : Int :=
  let u := bits % 2 ^ (8 * t.sizeof)
  if t.signed && decide (2 ^ (8 * t.sizeof - 1) ≤ u) then (u : Int) - (2 ^ (8 * t.sizeof) : Int)
  else (u : Int)

/-- The scalar branches of `retrieveArg`, selected by `sizeof(T)`. -/
def retrieveScalar (t : ScalarTy) (Data : List Byte) (Cursor : Nat) : Option (Value × Nat) :=
  match t.sizeof with
  | 1 =>
    match Data[Cursor]? with
    | some d0 => some (.scalar t (staticCast t d0.val), Cursor + 1)
    | none => none
  | 2 =>
    match Data[Cursor]?, Data[Cursor + 1]? with
    | some d0, some d1 =>
      some (.scalar t (staticCast t (((d1.val <<< 8) % 2 ^ 32) ||| d0.val)), Cursor + 2)
    | _, _ => none
  | _ =>
    match Data[Cursor]?, Data[Cursor + 1]?, Data[Cursor + 2]?, Data[Cursor + 3]? with
    | some d0, some d1, some d2, some d3 =>
      some (.scalar t (staticCast t
        (((d3.val <<< 24) % 2 ^ 32) ||| ((d2.val <<< 16) % 2 ^ 32) |||
          ((d1.val <<< 8) % 2 ^ 32) ||| d0.val)), Cursor + 4)
    | _, _, _, _ => none

/-- The string branch of `retrieveArg`. -/
def retrieveString (Data : List Byte) (Cursor : Nat) : Option (Value × Nat) :=
  match Data[Cursor]? with
  | some dataSize =>
    if Cursor + 1 + dataSize.val ≤ Data.length then
      some (.text ((Data.drop (Cursor + 1)).take dataSize.val), Cursor + 1 + dataSize.val)
    else none
  | none => none

/-- The loop `for (i = 0; i < dataSize; i++) output.push_back(retrieveArg<...>(Data, Cursor))`
of the vector branch, `retrieve` being the decoder of the element type. -/
def retrieveLoop (retrieve : Nat → Option (Value × Nat)) : Nat → Nat → Option (List Value × Nat)
  | 0, Cursor => some ([], Cursor)
  | n + 1, Cursor =>
    match retrieve Cursor with
    | some (x, Cursor1) =>
      match retrieveLoop retrieve n Cursor1 with
      | some (xs, Cursor2) => some (x :: xs, Cursor2)
      | none => none
    | none => none

mutual
/-- The member `Buffer::retrieveArg<T>(Data, Cursor)`: the decoded value and the advanced cursor. -/
def retrieveArg : Shape → List Byte → Nat → Option (Value × Nat)
  | .seq elem, Data, Cursor =>
    match Data[Cursor]? with
    | some dataSize =>
      match retrieveLoop (retrieveArg elem Data) dataSize.val (Cursor + 1) with
      | some (output, Cursor1) => some (.seq output, Cursor1)
      | none => none
    | none => none
  | .tuple slots, Data, Cursor =>
    match retrieveSlots slots Data Cursor with
    | some (xs, Cursor1) => some (.tuple xs, Cursor1)
    | none => none
  | .text, Data, Cursor => retrieveString Data Cursor
  | .scalar t, Data, Cursor => retrieveScalar t Data Cursor
/-- The braced initialiser list `Ts(retrieveArg<Ts>(Data, Cursor))...` of the tuple branch, slot
by slot from left to right. -/
def retrieveSlots : List Shape → List Byte → Nat → Option (List Value × Nat)
  | [], _, Cursor => some ([], Cursor)
  | s :: ss, Data, Cursor =>
    match retrieveArg s Data Cursor with
    | some (x, Cursor1) =>
      match retrieveSlots ss Data Cursor1 with
      | some (xs, Cursor2) => some (x :: xs, Cursor2)
      | none => none
    | none => none
end

/-- The entry point `Buffer::GetArgumentsAndSize<T>(Data)`: cursor from 0, value and final
cursor returned. -/
def GetArgumentsAndSize (T : Shape) (Data : List Byte) : Option (Value × Nat) :=
  retrieveArg T Data 0

/-- The entry point `Buffer::GetArguments<T>(Data)`: cursor from 0, final cursor dropped. -/
def GetArguments (T : Shape) (Data : List Byte) : Option Value :=
  (retrieveArg T Data 0).map Prod.fst

/-! ## Reference wire layout

The layout of section 6 of the specification, written as a pure function of the value.
It is what the encoder is compared with; it is not a translation of any source function. -/

/-- Byte `i` (from the least significant) of the two's complement representation of `v`. -/
def leByte (v : Int) (i : Nat) : Byte := castChar (v / 2 ^ (8 * i))

mutual
/-- Reference layout of one value: `sizeof` little-endian bytes for a scalar, a length byte
and the (prefix-many) raw bytes for a text, a count byte and the element layouts for a
sequence, the slot layouts for a tuple. -/
def wire : Value → List Byte
  | .scalar t v => (List.range t.sizeof).map (leByte v)
  | .text s => castChar s.length :: s.take (s.length % 256)
  | .seq xs => castChar xs.length :: wireAll xs
  | .tuple xs => wireAll xs
/-- Reference layout of a list of values: their layouts back to back. -/
def wireAll : List Value → List Byte
  | [] => []
  | x :: xs => wire x ++ wireAll xs
end

/-- The encoder state `b1` is `b` with the bytes `out` appended at its `size`: same
allocation, `size` advanced by the length of `out`, earlier content untouched. -/
def Appends (b : Buffer) (out : List Byte) (b1 : Buffer) : Prop :=
  b1.data.length = b.data.length ∧ b1.size = b.size + out.length ∧
    b1.size ≤ b1.data.length ∧ b1.data.take b1.size = b.data.take b.size ++ out

/-- The number a little-endian byte string denotes: `b0 + 256 * b1 + 256 ^ 2 * b2 + ...`. -/
def leValue : List Byte → Nat
  | [] => 0
  | b :: bs => b.val + 256 * leValue bs

mutual
/-- The shape is one a C++ type of the program can have: every tuple in it has at least
one slot. An empty `std::tuple` does not satisfy `isTuple` (which needs `std::get<0>`) and
compiles in no other branch of `retrieveArg` or `handleArg`. -/
def Shape.wellFormed : Shape → Bool
  | .scalar _ => true
  | .text => true
  | .seq elem => Shape.wellFormed elem
  | .tuple slots => !slots.isEmpty && Shape.allWellFormed slots
/-- Every shape of the list is well formed. -/
def Shape.allWellFormed : List Shape → Bool
  | [] => true
  | s :: ss => Shape.wellFormed s && Shape.allWellFormed ss
end

/-! ## Test data of `src/main.cpp` -/

/-- A heap whose cells all hold zero before the allocation. -/
def zeroHeap : Nat → Byte := fun _ => 0

/-- The 11 bytes of the text `hello guys!`. -/
def helloGuys : List Byte := [104, 101, 108, 108, 111, 32, 103, 117, 121, 115, 33]

/-- The 5 bytes of the text `hello`. -/
def hello : List Byte := [104, 101, 108, 108, 111]

/-- The test value `tup_res1`, a `std::tuple<int8_t, int16_t>` of `0x12` and `0x0080`. -/
def tup_res1 : Value := .tuple [.scalar .int8 0x12, .scalar .int16 0x0080]

/-- The test value `tup_res2`, a `std::tuple<int8_t, std::string>` of `0x12` and `hello`. -/
def tup_res2 : Value := .tuple [.scalar .int8 0x12, .text hello]

/-- The test value `vec_res1`, a `std::vector<int8_t>` of `0x12`, `0x34`, `0x56`. -/
def vec_res1 : Value := .seq [.scalar .int8 0x12, .scalar .int8 0x34, .scalar .int8 0x56]

/-- The test value `vec_res3`, a `std::vector<std::tuple<int8_t, std::string>>` of the
three tuples `0x12, hello`, then `0x34, guys`, then `0x56, !`. -/
def vec_res3 : Value :=
  .seq [.tuple [.scalar .int8 0x12, .text hello],
        .tuple [.scalar .int8 0x34, .text [103, 117, 121, 115]],
        .tuple [.scalar .int8 0x56, .text [33]]]

/-- The static type `std::vector<std::tuple<int8_t, std::string>>`. -/
def vec_res3_type : Shape := .seq (.tuple [.scalar .int8, .text])

/-- The 17 bytes the test expects for `vec_res3`. -/
def vec_res3_bytes : List Byte :=
  [0x03, 0x12, 0x05, 0x68, 0x65, 0x6C, 0x6C, 0x6F, 0x34, 0x04, 0x67, 0x75, 0x79, 0x73,
    0x56, 0x01, 0x21]

/-! ## Arithmetic of the scalar branches -/

theorem land_ff (x : Int) : Int.land x 0xFF = x % 256 := by
  cases x with
  | ofNat n =>
    have h := Nat.and_pow_two_sub_one_eq_mod n 8
    norm_num at h
    show (((n &&& 255 : Nat)) : Int) = _
    rw [h]; rfl
  | negSucc n =>
    show ((Nat.ldiff 255 n : Nat) : Int) = _
    rw [Int.negSucc_emod n (by norm_num : (0:Int) < 256)]
    have h : Nat.ldiff 255 n = 255 - n % 256 := by
      apply Nat.eq_of_testBit_eq
      intro i
      rw [Nat.testBit_ldiff]
      have h1 := @Nat.testBit_two_pow_sub_succ (n % 256) 8 (by omega) i
      have h2 : (2:Nat) ^ 8 - (n % 256 + 1) = 255 - n % 256 := by omega
      rw [h2] at h1
      rw [h1]
      have h3 : (255 : Nat) = 2 ^ 8 - 1 := by norm_num
      rw [h3, Nat.testBit_two_pow_sub_one]
      have h4 : n % 256 = n % 2 ^ 8 := by norm_num
      rw [h4, Nat.testBit_mod_two_pow]
      by_cases hi : i < 8 <;> simp [hi]
    rw [h]
    omega

theorem castChar_land_ff (x : Int) : castChar (Int.land x 0xFF) = castChar x := by
  rw [land_ff]
  apply Fin.ext
  show ((x % 256) % 256).toNat = (x % 256).toNat
  rw [Int.emod_emod_of_dvd x (by norm_num : (256 : Int) ∣ 256)]

theorem castChar_shift (x : Int) (k : Nat) :
    castChar (Int.land (x >>> (8 * k)) 0xFF) = leByte x k := by
  rw [castChar_land_ff, Int.shiftRight_eq_div_pow]
  unfold leByte
  norm_cast

theorem leByte_zero (x : Int) : leByte x 0 = castChar x := by
  unfold leByte
  simp

/-! ## The encoder writes the reference layout -/

theorem Appends.refl (b : Buffer) (h : b.size ≤ b.data.length) : Appends b [] b := by
  simp [Appends, h]

theorem Appends.trans {b b1 b2 : Buffer} {o1 o2 : List Byte}
    (h1 : Appends b o1 b1) (h2 : Appends b1 o2 b2) : Appends b (o1 ++ o2) b2 := by
  obtain ⟨l1, s1, _, t1⟩ := h1
  obtain ⟨l2, s2, c2, t2⟩ := h2
  refine ⟨by omega, by simp; omega, c2, ?_⟩
  rw [t2, t1, List.append_assoc]

theorem put_spec (b : Buffer) (c : Byte) (h : b.size < b.data.length) :
    ∃ b1, b.put c = some b1 ∧ Appends b [c] b1 := by
  refine ⟨{ size := b.size + 1, data := b.data.set b.size c }, by simp [Buffer.put, h], ?_⟩
  refine ⟨by simp, by simp, by simp; omega, ?_⟩
  simp only [List.set_eq_take_append_cons_drop, h, if_true]
  rw [show b.size + 1 = (List.take b.size b.data).length + 1 by simp; omega]
  rw [List.take_append]
  simp

theorem castChar_natMod (n : Nat) : castChar ((n % 256 : Nat) : Int) = castChar n := by
  apply Fin.ext
  show ((((n % 256 : Nat) : Int)) % 256).toNat = ((n : Int) % 256).toNat
  omega

theorem handleString_spec (s : List Byte) (b : Buffer)
    (h : b.size + (1 + s.length) ≤ b.data.length) :
    ∃ b1, handleString s b = some b1 ∧
      Appends b (castChar s.length :: s.take (s.length % 256)) b1 := by
  obtain ⟨b1, e1, l1, s1, c1, t1⟩ := put_spec b (castChar (s.length % 256 : Nat)) (by omega)
  rw [castChar_natMod] at t1
  have hm : s.length % 256 ≤ s.length := Nat.mod_le _ _
  simp only [List.length_singleton] at s1
  have hfit : b1.size + s.length ≤ b1.data.length := by omega
  refine ⟨{ size := b1.size + s.length % 256,
            data := b1.data.take b1.size ++ s ++ b1.data.drop (b1.size + s.length) }, ?_, ?_⟩
  · simp only [handleString]
    rw [e1]
    simp [memcpy, hfit]
  · have hlen : (List.take b1.size b1.data).length = b1.size := by simp; omega
    refine ⟨?_, ?_, ?_, ?_⟩
    · simp; omega
    · simp; omega
    · simp; omega
    · show List.take (b1.size + s.length % 256) (List.take b1.size b1.data ++ s ++ _) = _
      rw [List.take_append_of_le_length (by simp; omega)]
      conv_lhs => rw [show b1.size + s.length % 256
        = (List.take b1.size b1.data).length + s.length % 256 by rw [hlen]]
      rw [List.take_append, t1]
      simp

theorem castChar_shift8 (x : Int) : castChar (Int.land (x >>> (8 : Nat)) 0xFF) = leByte x 1 :=
  castChar_shift x 1

theorem castChar_shift16 (x : Int) :
    castChar (Int.land (x >>> (16 : Nat)) 0xFF) = leByte x 2 :=
  castChar_shift x 2

theorem castChar_shift24 (x : Int) :
    castChar (Int.land (x >>> (24 : Nat)) 0xFF) = leByte x 3 :=
  castChar_shift x 3

theorem Appends.room {b b1 : Buffer} {o : List Byte} (h : Appends b o b1) (k : Nat)
    (hk : b.size + (o.length + k) ≤ b.data.length) : b1.size + k ≤ b1.data.length := by
  obtain ⟨l1, s1, _, _⟩ := h
  omega

theorem handleScalar_spec (t : ScalarTy) (v : Int) (b : Buffer)
    (h : b.size + t.sizeof ≤ b.data.length) :
    ∃ b1, handleScalar t v b = some b1 ∧ Appends b ((List.range t.sizeof).map (leByte v)) b1 := by
  have one : t.sizeof = 1 → ∃ b1, handleScalar t v b = some b1 ∧
      Appends b ((List.range t.sizeof).map (leByte v)) b1 := by
    intro hs
    rw [hs] at h
    obtain ⟨b1, e1, a1⟩ := put_spec b (leByte v 0) (by omega)
    refine ⟨b1, ?_, ?_⟩
    · simp only [handleScalar, hs]
      rw [← leByte_zero, e1]
    · rw [hs]
      exact a1
  have two : t.sizeof = 2 → ∃ b1, handleScalar t v b = some b1 ∧
      Appends b ((List.range t.sizeof).map (leByte v)) b1 := by
    intro hs
    rw [hs] at h
    obtain ⟨b1, e1, a1⟩ := put_spec b (leByte v 0) (by omega)
    obtain ⟨b2, e2, a2⟩ := put_spec b1 (leByte v 1) (a1.room 1 (by simpa using h))
    refine ⟨b2, ?_, ?_⟩
    · simp only [handleScalar, hs]
      rw [castChar_land_ff, castChar_shift8, ← leByte_zero, e1]
      exact e2
    · rw [hs]
      exact a1.trans a2
  have four : t.sizeof = 4 → ∃ b1, handleScalar t v b = some b1 ∧
      Appends b ((List.range t.sizeof).map (leByte v)) b1 := by
    intro hs
    rw [hs] at h
    obtain ⟨b1, e1, a1⟩ := put_spec b (leByte v 0) (by omega)
    obtain ⟨b2, e2, a2⟩ := put_spec b1 (leByte v 1) (a1.room 1 (by simp; omega))
    have a12 := a1.trans a2
    obtain ⟨b3, e3, a3⟩ := put_spec b2 (leByte v 2) (a12.room 1 (by simp; omega))
    have a13 := a12.trans a3
    obtain ⟨b4, e4, a4⟩ := put_spec b3 (leByte v 3) (a13.room 1 (by simp; omega))
    refine ⟨b4, ?_, ?_⟩
    · simp only [handleScalar, hs]
      rw [castChar_land_ff, castChar_shift8, castChar_shift16, castChar_shift24,
        ← leByte_zero, e1]
      simp only [Option.bind]
      rw [e2]
      simp only []
      rw [e3]
      exact e4
    · rw [hs]
      exact a13.trans a4
  cases t
  · exact one rfl
  · exact one rfl
  · exact two rfl
  · exact two rfl
  · exact four rfl
  · exact four rfl

mutual
theorem wire_length_le : ∀ v : Value, (wire v).length ≤ getSizeSimple v
  | .scalar t v => by simp [wire, getSizeSimple]
  | .text s => by
    have := Nat.mod_le s.length 256
    simp [wire, getSizeSimple, List.length_take]
    omega
  | .seq xs => by
    have := wireAll_length_le xs
    simp [wire, getSizeSimple]
    omega
  | .tuple xs => by
    have := wireAll_length_le xs
    simpa [wire, getSizeSimple] using this
theorem wireAll_length_le : ∀ xs : List Value, (wireAll xs).length ≤ getSize xs
  | [] => by simp [wireAll, getSize]
  | x :: xs => by
    have h1 := wire_length_le x
    have h2 := wireAll_length_le xs
    simp [wireAll, getSize]
    omega
end

mutual
theorem handleFirst_spec : ∀ (v : Value) (b : Buffer),
    b.size + getSizeSimple v ≤ b.data.length →
    ∃ b1, handleFirst v b = some b1 ∧ Appends b (wire v) b1
  | .scalar t v, b, h => by
    simp only [getSizeSimple] at h
    simpa [handleFirst, wire] using handleScalar_spec t v b h
  | .text s, b, h => by
    simp only [getSizeSimple] at h
    simpa [handleFirst, wire] using handleString_spec s b h
  | .seq xs, b, h => by
    simp only [getSizeSimple] at h
    obtain ⟨b1, e1, a1⟩ := put_spec b (castChar xs.length) (by omega)
    obtain ⟨b2, e2, a2⟩ := handleArg_spec xs b1 (a1.room _ (by simp; omega))
    refine ⟨b2, ?_, ?_⟩
    · simp only [handleFirst]
      rw [e1]
      exact e2
    · simpa [wire] using a1.trans a2
  | .tuple xs, b, h => by
    simp only [getSizeSimple] at h
    simpa [handleFirst, wire] using handleArg_spec xs b h
theorem handleArg_spec : ∀ (args : List Value) (b : Buffer),
    b.size + getSize args ≤ b.data.length →
    ∃ b1, handleArg args b = some b1 ∧ Appends b (wireAll args) b1
  | [], b, h => ⟨b, by simp [handleArg], by simpa [wireAll] using Appends.refl b (by omega)⟩
  | first :: rest, b, h => by
    simp only [getSize] at h
    obtain ⟨b1, e1, a1⟩ := handleFirst_spec first b (by omega)
    have hl := wire_length_le first
    obtain ⟨b2, e2, a2⟩ := handleArg_spec rest b1 (a1.room _ (by omega))
    refine ⟨b2, ?_, ?_⟩
    · simp only [handleArg]
      rw [e1]
      exact e2
    · simpa [wireAll] using a1.trans a2
end

mutual
theorem wire_length_eq : ∀ v : Value, v.textsShort = true → (wire v).length = getSizeSimple v
  | .scalar t v, _ => by simp [wire, getSizeSimple]
  | .text s, h => by
    simp only [Value.textsShort, decide_eq_true_eq] at h
    simp [wire, getSizeSimple, List.length_take]
    omega
  | .seq xs, h => by
    simp only [Value.textsShort] at h
    have := wireAll_length_eq xs h
    simp [wire, getSizeSimple]
    omega
  | .tuple xs, h => by
    simp only [Value.textsShort] at h
    simpa [wire, getSizeSimple] using wireAll_length_eq xs h
theorem wireAll_length_eq : ∀ xs : List Value, Value.allTextsShort xs = true →
    (wireAll xs).length = getSize xs
  | [], _ => by simp [wireAll, getSize]
  | x :: xs, h => by
    simp only [Value.allTextsShort, Bool.and_eq_true] at h
    have h1 := wire_length_eq x h.1
    have h2 := wireAll_length_eq xs h.2
    simp [wireAll, getSize]
    omega
end

mutual
theorem textsShort_of_withinLimits : ∀ v : Value, v.withinLimits = true → v.textsShort = true
  | .scalar _ _, _ => rfl
  | .text s, h => by simpa [Value.textsShort, Value.withinLimits] using h
  | .seq xs, h => by
    simp only [Value.withinLimits, Bool.and_eq_true] at h
    simpa [Value.textsShort] using allTextsShort_of_allWithinLimits xs h.2
  | .tuple xs, h => by
    simp only [Value.withinLimits] at h
    simpa [Value.textsShort] using allTextsShort_of_allWithinLimits xs h
theorem allTextsShort_of_allWithinLimits : ∀ xs : List Value,
    Value.allWithinLimits xs = true → Value.allTextsShort xs = true
  | [], _ => rfl
  | x :: xs, h => by
    simp only [Value.allWithinLimits, Bool.and_eq_true] at h
    simp [Value.allTextsShort, textsShort_of_withinLimits x h.1,
      allTextsShort_of_allWithinLimits xs h.2]
end

/-- The constructor always succeeds: the allocation has `getSize args` cells, `size` ends
as the length of the reference layout and the first `size` cells hold that layout. -/
theorem construct_spec (heap : Nat → Byte) (args : List Value) :
    ∃ b, Buffer.construct heap args = some b ∧ b.data.length = getSize args ∧
      b.size = (wireAll args).length ∧ b.data.take b.size = wireAll args := by
  obtain ⟨b, e, l, sz, _, t⟩ := handleArg_spec args
    { size := 0, data := (List.range (getSize args)).map heap } (by simp)
  exact ⟨b, e, by simpa using l, by simpa using sz, by simpa using t⟩

/-- When no text has 256 bytes or more the whole allocation is the reference layout. -/
theorem construct_short (heap : Nat → Byte) (args : List Value)
    (h : Value.allTextsShort args = true) :
    Buffer.construct heap args = some { size := getSize args, data := wireAll args } := by
  obtain ⟨b, e, l, sz, t⟩ := construct_spec heap args
  have hl := wireAll_length_eq args h
  rw [e]
  congr 1
  have hd : b.data = wireAll args := by
    rw [← t, List.take_of_length_le (by omega)]
  cases b
  simp only [Buffer.mk.injEq]
  exact ⟨by simp_all, hd⟩

/-! ## Decoding the reference layout -/

theorem getElem_of_lead {l D : List Byte} {c : Nat} (h : l <+: D.drop c) (i : Nat)
    (hi : i < l.length) : D[c + i]? = l[i]? := by
  obtain ⟨t, ht⟩ := h
  rw [← List.getElem?_drop, ← ht, List.getElem?_append_left hi]

theorem lead_drop_cons {x : Byte} {l D : List Byte} {c : Nat} (h : (x :: l) <+: D.drop c) :
    D[c]? = some x ∧ l <+: D.drop (c + 1) := by
  obtain ⟨t, ht⟩ := h
  constructor
  · have := getElem_of_lead (⟨t, ht⟩ : (x :: l) <+: D.drop c) 0 (by simp)
    simpa using this
  · refine ⟨t, ?_⟩
    have h2 : List.drop 1 (List.drop c D) = List.drop 1 (x :: l ++ t) := by rw [ht]
    rw [List.drop_drop] at h2
    simpa using h2.symm

theorem lead_drop_append {a l D : List Byte} {c : Nat} (h : (a ++ l) <+: D.drop c) :
    a <+: D.drop c ∧ l <+: D.drop (c + a.length) := by
  obtain ⟨t, ht⟩ := h
  constructor
  · exact ⟨l ++ t, by rw [← List.append_assoc]; exact ht⟩
  · refine ⟨t, ?_⟩
    have h2 : List.drop a.length (List.drop c D) = List.drop a.length (a ++ l ++ t) := by
      rw [ht]
    rw [List.drop_drop] at h2
    rw [h2, List.append_assoc, List.drop_left]

theorem lead_drop_take {l D : List Byte} {c : Nat} (hc : c ≤ D.length)
    (h : l <+: D.drop c) : c + l.length ≤ D.length ∧ (D.drop c).take l.length = l := by
  obtain ⟨t, ht⟩ := h
  constructor
  · have : (D.drop c).length = (l ++ t).length := by rw [ht]
    simp at this
    omega
  · rw [← ht]
    simp


theorem or_bytes2 (d0 d1 : Nat) (h0 : d0 < 256) (h1 : d1 < 256) :
    ((d1 <<< 8) % 2 ^ 32 ||| d0) = d0 + 256 * d1 := by
  have e := Nat.mul_add_lt_is_or (show d0 < 2 ^ 8 by omega) d1
  rw [Nat.shiftLeft_eq, Nat.mod_eq_of_lt (by omega), Nat.mul_comm d1, ← e]
  omega

theorem or_bytes4 (d0 d1 d2 d3 : Nat) (h0 : d0 < 256) (h1 : d1 < 256) (h2 : d2 < 256)
    (h3 : d3 < 256) :
    ((d3 <<< 24) % 2 ^ 32 ||| (d2 <<< 16) % 2 ^ 32 ||| (d1 <<< 8) % 2 ^ 32 ||| d0)
      = d0 + 256 * d1 + 65536 * d2 + 16777216 * d3 := by
  have e1 := Nat.mul_add_lt_is_or (show d0 < 2 ^ 8 by omega) (d1 + 256 * d2 + 65536 * d3)
  have e2 := Nat.mul_add_lt_is_or (show 2 ^ 8 * d1 < 2 ^ 16 by omega) (d2 + 256 * d3)
  have e3 := Nat.mul_add_lt_is_or (show 2 ^ 16 * d2 < 2 ^ 24 by omega) d3
  rw [Nat.shiftLeft_eq, Nat.shiftLeft_eq, Nat.shiftLeft_eq, Nat.mod_eq_of_lt (by omega),
    Nat.mod_eq_of_lt (by omega), Nat.mod_eq_of_lt (by omega), Nat.mul_comm d3, Nat.mul_comm d2,
    Nat.mul_comm d1, ← e3]
  rw [show 2 ^ 24 * d3 + 2 ^ 16 * d2 = 2 ^ 16 * (d2 + 256 * d3) by omega, ← e2]
  rw [show 2 ^ 16 * (d2 + 256 * d3) + 2 ^ 8 * d1 = 2 ^ 8 * (d1 + 256 * d2 + 65536 * d3) by omega,
    ← e1]
  omega

theorem leByte_val (v : Int) (i : Nat) : (leByte v i).val = (v / 2 ^ (8 * i) % 256).toNat := rfl

theorem inRange_bounds (t : ScalarTy) (v : Int) (hr : t.inRange v = true) :
    (t.signed = true → -(2 ^ (8 * t.sizeof - 1) : Int) ≤ v ∧ v ≤ 2 ^ (8 * t.sizeof - 1) - 1) ∧
    (t.signed = false → 0 ≤ v ∧ v ≤ 2 ^ (8 * t.sizeof) - 1) := by
  simp only [ScalarTy.inRange, ScalarTy.minVal, ScalarTy.maxVal, Bool.and_eq_true,
    decide_eq_true_eq] at hr
  constructor
  · intro h
    simpa [h] using hr
  · intro h
    simpa [h] using hr

/-- Applying `static_cast<T>` to the unsigned representation of an in-range value gives it back. -/
theorem staticCast_rep (t : ScalarTy) (v : Int) (bits : Nat) (hr : t.inRange v = true)
    (hb : (bits : Int) = v % 2 ^ (8 * t.sizeof)) : staticCast t bits = v := by
  have hb2 := inRange_bounds t v hr
  cases t <;>
    simp only [ScalarTy.signed, ScalarTy.sizeof, Nat.reduceMul, Nat.reducePow, Nat.reduceSub,
      true_implies, false_implies, and_true, true_and, Bool.false_eq_true, reduceCtorEq] at hb hb2 <;>
    simp only [staticCast, ScalarTy.signed, ScalarTy.sizeof, Nat.reduceMul, Nat.reducePow,
      Nat.reduceSub, Bool.true_and, Bool.false_and, decide_eq_true_eq, Bool.false_eq_true,
      if_false] <;>
    omega

theorem retrieveScalar_wire (t : ScalarTy) (v : Int) (D : List Byte) (c : Nat)
    (hr : t.inRange v = true) (h : (List.range t.sizeof).map (leByte v) <+: D.drop c) :
    retrieveScalar t D c = some (.scalar t v, c + t.sizeof) := by
  have b0 := leByte_val v 0
  have b1 := leByte_val v 1
  have b2 := leByte_val v 2
  have b3 := leByte_val v 3
  simp only [Nat.reduceMul, Nat.reducePow, pow_zero, Int.ediv_one] at b0 b1 b2 b3
  have one : t.sizeof = 1 → retrieveScalar t D c = some (.scalar t v, c + t.sizeof) := by
    intro hs
    rw [hs] at h
    have h1 : [leByte v 0] <+: D.drop c := h
    have g0 := getElem_of_lead h1 0 (by simp)
    simp only [Nat.add_zero, List.getElem?_cons_zero] at g0
    simp only [retrieveScalar, hs]
    rw [g0]
    simp only [Option.some.injEq, Prod.mk.injEq, and_true, Value.scalar.injEq, true_and]
    apply staticCast_rep t v _ hr
    rw [hs]
    omega
  have two : t.sizeof = 2 → retrieveScalar t D c = some (.scalar t v, c + t.sizeof) := by
    intro hs
    rw [hs] at h
    have h1 : [leByte v 0, leByte v 1] <+: D.drop c := h
    have g0 := getElem_of_lead h1 0 (by simp)
    have g1 := getElem_of_lead h1 1 (by simp)
    simp only [Nat.add_zero, List.getElem?_cons_zero, List.getElem?_cons_succ] at g0 g1
    simp only [retrieveScalar, hs]
    rw [g0, g1]
    simp only [Option.some.injEq, Prod.mk.injEq, and_true, Value.scalar.injEq, true_and]
    apply staticCast_rep t v _ hr
    rw [hs, or_bytes2 _ _ (leByte v 0).isLt (leByte v 1).isLt]
    omega
  have four : t.sizeof = 4 → retrieveScalar t D c = some (.scalar t v, c + t.sizeof) := by
    intro hs
    rw [hs] at h
    have h1 : [leByte v 0, leByte v 1, leByte v 2, leByte v 3] <+: D.drop c := h
    have g0 := getElem_of_lead h1 0 (by simp)
    have g1 := getElem_of_lead h1 1 (by simp)
    have g2 := getElem_of_lead h1 2 (by simp)
    have g3 := getElem_of_lead h1 3 (by simp)
    simp only [Nat.add_zero, List.getElem?_cons_zero, List.getElem?_cons_succ] at g0 g1 g2 g3
    simp only [retrieveScalar, hs]
    rw [g0, g1, g2, g3]
    simp only [Option.some.injEq, Prod.mk.injEq, and_true, Value.scalar.injEq, true_and]
    apply staticCast_rep t v _ hr
    rw [hs, or_bytes4 _ _ _ _ (leByte v 0).isLt (leByte v 1).isLt (leByte v 2).isLt
      (leByte v 3).isLt]
    omega
  cases t
  · exact one rfl
  · exact one rfl
  · exact two rfl
  · exact two rfl
  · exact four rfl
  · exact four rfl

theorem retrieveString_wire (s : List Byte) (D : List Byte) (c : Nat) (hl : s.length ≤ 255)
    (h : (castChar s.length :: s.take (s.length % 256)) <+: D.drop c) :
    retrieveString D c = some (.text s, c + (1 + s.length)) := by
  obtain ⟨g0, h1⟩ := lead_drop_cons h
  have hm : s.length % 256 = s.length := Nat.mod_eq_of_lt (by omega)
  rw [hm, List.take_length] at h1
  have hv : (castChar s.length).val = s.length := by
    show ((s.length : Int) % 256).toNat = s.length
    omega
  have hc : c + 1 ≤ D.length := by
    have := (List.getElem?_eq_some_iff.mp g0).1
    omega
  obtain ⟨hfit, ht⟩ := lead_drop_take hc h1
  simp only [retrieveString]
  rw [g0]
  simp only [hv]
  rw [if_pos (by omega), ht]
  simp [Nat.add_assoc]

theorem castChar_val_of_le (n : Nat) (h : n ≤ 255) : (castChar n).val = n := by
  show ((n : Int) % 256).toNat = n
  omega

mutual
theorem retrieveArg_wire : ∀ (v : Value) (T : Shape) (D : List Byte) (c : Nat),
    v.hasShape T = true → v.withinLimits = true → wire v <+: D.drop c →
    retrieveArg T D c = some (v, c + (wire v).length)
  | .scalar t v, T, D, c, hs, _, h => by
    cases T with
    | scalar t1 =>
      simp only [Value.hasShape, Bool.and_eq_true, decide_eq_true_eq] at hs
      obtain ⟨rfl, hr⟩ := hs
      simp only [wire] at h
      simpa [retrieveArg, wire] using retrieveScalar_wire t v D c hr h
    | _ => simp [Value.hasShape] at hs
  | .text s, T, D, c, hs, hl, h => by
    cases T with
    | text =>
      simp only [Value.withinLimits, decide_eq_true_eq] at hl
      simp only [wire] at h
      have hm : s.length % 256 = s.length := Nat.mod_eq_of_lt (by omega)
      have e1 := retrieveString_wire s D c hl h
      simp only [retrieveArg]
      rw [e1]
      simp [wire, hm, Nat.add_comm]
    | _ => simp [Value.hasShape] at hs
  | .seq xs, T, D, c, hs, hl, h => by
    cases T with
    | seq e =>
      simp only [Value.hasShape] at hs
      simp only [Value.withinLimits, Bool.and_eq_true, decide_eq_true_eq] at hl
      simp only [wire] at h
      obtain ⟨g0, h1⟩ := lead_drop_cons h
      have hv := castChar_val_of_le xs.length hl.1
      have e1 := retrieveLoop_wire xs e D (c + 1) hs hl.2 h1
      simp only [retrieveArg]
      rw [g0]
      simp only [hv]
      rw [e1]
      simp [wire, Nat.add_assoc, Nat.add_comm]
    | _ => simp [Value.hasShape] at hs
  | .tuple xs, T, D, c, hs, hl, h => by
    cases T with
    | tuple ss =>
      simp only [Value.hasShape] at hs
      simp only [Value.withinLimits] at hl
      simp only [wire] at h
      have e1 := retrieveSlots_wire xs ss D c hs hl h
      simp only [retrieveArg]
      rw [e1]
      simp [wire]
    | _ => simp [Value.hasShape] at hs
theorem retrieveLoop_wire : ∀ (xs : List Value) (e : Shape) (D : List Byte) (c : Nat),
    Value.allHaveShape xs e = true → Value.allWithinLimits xs = true →
    wireAll xs <+: D.drop c →
    retrieveLoop (retrieveArg e D) xs.length c = some (xs, c + (wireAll xs).length)
  | [], _, _, _, _, _, _ => by simp [retrieveLoop, wireAll]
  | x :: xs, e, D, c, hs, hl, h => by
    simp only [Value.allHaveShape, Bool.and_eq_true] at hs
    simp only [Value.allWithinLimits, Bool.and_eq_true] at hl
    simp only [wireAll] at h
    obtain ⟨ha, hb⟩ := lead_drop_append h
    have e1 := retrieveArg_wire x e D c hs.1 hl.1 ha
    have e2 := retrieveLoop_wire xs e D (c + (wire x).length) hs.2 hl.2 hb
    simp only [List.length_cons, retrieveLoop]
    rw [e1]
    simp only []
    rw [e2]
    simp [wireAll, Nat.add_assoc]
theorem retrieveSlots_wire : ∀ (xs : List Value) (ss : List Shape) (D : List Byte) (c : Nat),
    Value.haveShapes xs ss = true → Value.allWithinLimits xs = true →
    wireAll xs <+: D.drop c →
    retrieveSlots ss D c = some (xs, c + (wireAll xs).length)
  | [], [], _, _, _, _, _ => by simp [retrieveSlots, wireAll]
  | [], _ :: _, _, _, hs, _, _ => by simp [Value.haveShapes] at hs
  | _ :: _, [], _, _, hs, _, _ => by simp [Value.haveShapes] at hs
  | x :: xs, s :: ss, D, c, hs, hl, h => by
    simp only [Value.haveShapes, Bool.and_eq_true] at hs
    simp only [Value.allWithinLimits, Bool.and_eq_true] at hl
    simp only [wireAll] at h
    obtain ⟨ha, hb⟩ := lead_drop_append h
    have e1 := retrieveArg_wire x s D c hs.1 hl.1 ha
    have e2 := retrieveSlots_wire xs ss D (c + (wire x).length) hs.2 hl.2 hb
    simp only [retrieveSlots]
    rw [e1]
    simp only []
    rw [e2]
    simp [wireAll, Nat.add_assoc]
end

/-! ## Buffers of single arguments -/

theorem wireAll_single (v : Value) : wireAll [v] = wire v := by
  simp [wireAll]

theorem getSize_single (v : Value) : getSize [v] = getSizeSimple v := by
  simp [getSize]

theorem getSize_eq_sum : ∀ xs : List Value, getSize xs = (xs.map getSizeSimple).sum
  | [] => by simp [getSize]
  | x :: xs => by simp [getSize, getSize_eq_sum xs]

theorem allTextsShort_single (v : Value) (h : v.withinLimits = true) :
    Value.allTextsShort [v] = true := by
  simp [Value.allTextsShort, textsShort_of_withinLimits v h]

/-- Each argument has a buffer of its own, and the contents of these buffers, back to
back, are the reference layout of the list. -/
theorem construct_each (heap : Nat → Byte) : ∀ xs : List Value,
    ∃ es : List Buffer, List.Forall₂ (fun x e => Buffer.construct heap [x] = some e) xs es ∧
      (es.map Buffer.GetDataAsString).flatten = wireAll xs ∧
      (es.map Buffer.GetSize).sum = (wireAll xs).length
  | [] => ⟨[], List.Forall₂.nil, by simp [wireAll], by simp [wireAll]⟩
  | x :: xs => by
    obtain ⟨es, h1, h2, h3⟩ := construct_each heap xs
    obtain ⟨e, c1, _, c3, c4⟩ := construct_spec heap [x]
    rw [wireAll_single] at c3 c4
    refine ⟨e :: es, List.Forall₂.cons c1 h1, ?_, ?_⟩
    · simp only [List.map_cons, List.flatten_cons, h2, wireAll, Buffer.GetDataAsString, c4]
    · simp only [List.map_cons, List.sum_cons, h3, wireAll, Buffer.GetSize, c3,
        List.length_append]

theorem leByte_rep (t : ScalarTy) (v : Int) (i : Nat) (hi : i < t.sizeof) :
    (leByte v i).val = t.unsignedRep v / 2 ^ (8 * i) % 256 := by
  rw [leByte_val]
  have h0 : i = 0 ∨ i = 1 ∨ i = 2 ∨ i = 3 := by
    cases t <;> simp only [ScalarTy.sizeof] at hi <;> omega
  cases t <;> simp only [ScalarTy.sizeof] at hi <;>
    rcases h0 with rfl | rfl | rfl | rfl <;>
    first
      | omega
      | (simp only [ScalarTy.unsignedRep, ScalarTy.sizeof, Nat.reduceMul, Nat.reducePow,
          pow_zero, Int.ediv_one, Nat.div_one]
         omega)

/-! ## Round trip -/

theorem decode_construct (heap : Nat → Byte) (T : Shape) (v : Value)
    (hs : v.hasShape T = true) (hl : v.withinLimits = true) :
    ∃ b, Buffer.construct heap [v] = some b ∧ b.GetSize = getSize [v] ∧
      retrieveArg T b.GetData 0 = some (v, b.GetSize) := by
  refine ⟨_, construct_short heap [v] (allTextsShort_single v hl), rfl, ?_⟩
  have h := retrieveArg_wire v T (wireAll [v]) 0 hs hl (by simp [wireAll_single])
  have hlen := wireAll_length_eq [v] (allTextsShort_single v hl)
  rw [wireAll_single] at hlen
  simpa [Buffer.GetData, Buffer.GetSize, hlen] using h

/-- C1: for every shape `T` and every value `v` of that shape in which every text has at
most 255 bytes and every sequence at most 255 elements, the constructor succeeds and
`GetArguments<T>` applied to the data of `Buffer(v)` returns exactly `v`. -/
theorem roundtrip_value (heap : Nat → Byte) (T : Shape) (v : Value)
    (hs : v.hasShape T = true) (hl : v.withinLimits = true) :
    ∃ b, Buffer.construct heap [v] = some b ∧ GetArguments T b.GetData = some v := by
  obtain ⟨b, e, _, r⟩ := decode_construct heap T v hs hl
  exact ⟨b, e, by simp [GetArguments, r]⟩

theorem roundtrip_value_witness :
    vec_res3.hasShape vec_res3_type = true ∧ vec_res3.withinLimits = true ∧
      ∃ b, Buffer.construct zeroHeap [vec_res3] = some b ∧
        GetArguments vec_res3_type b.GetData = some vec_res3 :=
  ⟨by decide, by decide, roundtrip_value zeroHeap vec_res3_type vec_res3 (by decide) (by decide)⟩

/-- C2: for every within-limit value `v` of shape `T`, the second component of
`GetArgumentsAndSize<T>` on the data of `Buffer(v)` is `Buffer(v).GetSize()`, which is the
size calculator's result for `v`. -/
theorem consumed_eq_size (heap : Nat → Byte) (T : Shape) (v : Value)
    (hs : v.hasShape T = true) (hl : v.withinLimits = true) :
    ∃ b, Buffer.construct heap [v] = some b ∧
      (GetArgumentsAndSize T b.GetData).map Prod.snd = some b.GetSize ∧
      b.GetSize = getSize [v] ∧ b.GetSize = getSizeSimple v := by
  obtain ⟨b, e, g, r⟩ := decode_construct heap T v hs hl
  exact ⟨b, e, by simp [GetArgumentsAndSize, r], g, by rw [g, getSize_single]⟩

theorem consumed_eq_size_witness :
    tup_res2.hasShape (.tuple [.scalar .int8, .text]) = true ∧ tup_res2.withinLimits = true ∧
      ∃ b, Buffer.construct zeroHeap [tup_res2] = some b ∧
        (GetArgumentsAndSize (.tuple [.scalar .int8, .text]) b.GetData).map Prod.snd
          = some b.GetSize ∧
        b.GetSize = getSize [tup_res2] ∧ b.GetSize = getSizeSimple tup_res2 :=
  ⟨by decide, by decide,
    consumed_eq_size zeroHeap (.tuple [.scalar .int8, .text]) tup_res2 (by decide) (by decide)⟩

/-! ## Size calculator against encoder -/

/-- C3, as stated, fails: for the text of 256 zero bytes the size calculator gives 257
(the number of cells allocated) while the encoder leaves `GetSize()` at 1. -/
theorem size_agreement_fails_long_text :
    ∃ b, Buffer.construct zeroHeap [.text (List.replicate 256 0)] = some b ∧
      getSize [.text (List.replicate 256 0)] = 257 ∧ b.GetData.length = 257 ∧
      b.GetSize = 1 ∧ getSize [.text (List.replicate 256 0)] ≠ b.GetSize := by
  obtain ⟨b, e, l, sz, _⟩ := construct_spec zeroHeap [.text (List.replicate 256 0)]
  have hg : getSize [.text (List.replicate 256 0)] = 257 := by
    simp only [getSize, getSizeSimple, List.length_replicate]
  have hw : (wireAll [.text (List.replicate 256 0)]).length = 1 := by
    simp only [wireAll, wire, List.length_replicate, Nat.mod_self, List.take_zero,
      List.append_nil, List.length_singleton]
  refine ⟨b, e, hg, ?_, ?_, ?_⟩
  · rw [Buffer.GetData, l, hg]
  · rw [Buffer.GetSize, sz, hw]
  · rw [Buffer.GetSize, sz, hw, hg]
    decide

/-- C3, amended: for every argument list in which no text has 256 bytes or more (with no
restriction on the number of elements of a sequence), the constructor succeeds, the byte
count of the size calculator is the number of cells allocated, and it equals `GetSize()`
after `handleArg` has run. -/
theorem size_agreement_short_texts (heap : Nat → Byte) (args : List Value)
    (h : Value.allTextsShort args = true) :
    ∃ b, Buffer.construct heap args = some b ∧ b.GetData.length = getSize args ∧
      getSize args = b.GetSize := by
  obtain ⟨b, e, l, sz, _⟩ := construct_spec heap args
  exact ⟨b, e, l, by rw [Buffer.GetSize, sz, wireAll_length_eq args h]⟩

theorem size_agreement_short_texts_witness :
    Value.allTextsShort [.seq (List.replicate 256 (.text hello)), tup_res1] = true ∧
      ∃ b, Buffer.construct zeroHeap [.seq (List.replicate 256 (.text hello)), tup_res1]
          = some b ∧
        b.GetData.length = getSize [.seq (List.replicate 256 (.text hello)), tup_res1] ∧
        getSize [.seq (List.replicate 256 (.text hello)), tup_res1] = b.GetSize :=
  ⟨by decide, size_agreement_short_texts zeroHeap _ (by decide)⟩

/-! ## Layout of each shape -/

/-- C4: for every integer type of width `N` in 1, 2, 4 and every value `v` of the type,
`Buffer(v)` has size `N` and its byte `i` (`i < N`) is `(v / 2 ^ (8 i)) mod 256` on the
unsigned representation of `v`; the 2-byte `-1` gives `FF FF`, the 4-byte `2147483647`
gives `FF FF FF 7F` and the 4-byte `-2147483648` gives `00 00 00 80`. -/
theorem scalar_little_endian (heap : Nat → Byte) :
    (∀ (t : ScalarTy) (v : Int), t.inRange v = true →
      ∃ b, Buffer.construct heap [.scalar t v] = some b ∧ b.GetSize = t.sizeof ∧
        b.GetData.length = t.sizeof ∧
        ∀ i, i < t.sizeof →
          (b.GetData[i]?).map Fin.val = some (t.unsignedRep v / 2 ^ (8 * i) % 256)) ∧
    (∀ t : ScalarTy, t.sizeof = 1 ∨ t.sizeof = 2 ∨ t.sizeof = 4) ∧
    Buffer.construct heap [.scalar .int16 (-1)] = some ⟨2, [0xFF, 0xFF]⟩ ∧
    Buffer.construct heap [.scalar .int32 2147483647] = some ⟨4, [0xFF, 0xFF, 0xFF, 0x7F]⟩ ∧
    Buffer.construct heap [.scalar .int32 (-2147483648)] = some ⟨4, [0x00, 0x00, 0x00, 0x80]⟩ := by
  refine ⟨?_, ?_, ?_, ?_, ?_⟩
  · intro t v _
    refine ⟨_, construct_short heap [.scalar t v] rfl, ?_, ?_, ?_⟩
    · simp [Buffer.GetSize, getSize, getSizeSimple]
    · simp [Buffer.GetData, wireAll, wire]
    · intro i hi
      simp only [Buffer.GetData, wireAll, wire, List.append_nil]
      rw [List.getElem?_map, List.getElem?_range hi]
      simp only [Option.map_some']
      rw [leByte_rep t v i hi]
  · intro t
    cases t <;> simp [ScalarTy.sizeof]
  · rw [construct_short heap [.scalar .int16 (-1)] rfl]
    decide
  · rw [construct_short heap [.scalar .int32 2147483647] rfl]
    decide
  · rw [construct_short heap [.scalar .int32 (-2147483648)] rfl]
    decide

theorem scalar_little_endian_witness :
    ScalarTy.int16.inRange (-32768) = true ∧
      ∃ b, Buffer.construct zeroHeap [.scalar .int16 (-32768)] = some b ∧
        b.GetSize = ScalarTy.int16.sizeof ∧ b.GetData.length = ScalarTy.int16.sizeof ∧
        ∀ i, i < ScalarTy.int16.sizeof →
          (b.GetData[i]?).map Fin.val
            = some (ScalarTy.int16.unsignedRep (-32768) / 2 ^ (8 * i) % 256) :=
  ⟨by decide, (scalar_little_endian zeroHeap).1 .int16 (-32768) (by decide)⟩

/-- C5: for every text `s` of `L ≤ 255` bytes, the first `GetSize()` bytes of `Buffer(s)`
are the single byte `L` followed by the `L` bytes of `s` in order, and `GetSize()` is
`1 + L`; for the text `hello guys!` this is `0B` and the 11 bytes, 12 in all. -/
theorem text_encoding (heap : Nat → Byte) :
    (∀ s : List Byte, s.length ≤ 255 →
      ∃ b, Buffer.construct heap [.text s] = some b ∧
        b.GetDataAsString = castChar s.length :: s ∧ (castChar s.length).val = s.length ∧
        b.GetSize = 1 + s.length) ∧
    Buffer.construct heap [.text helloGuys] = some ⟨12, 0x0B :: helloGuys⟩ ∧
    helloGuys.length = 11 := by
  refine ⟨?_, ?_, rfl⟩
  · intro s hs
    have hm : s.length % 256 = s.length := Nat.mod_eq_of_lt (by omega)
    refine ⟨_, construct_short heap [.text s] (by simp [Value.allTextsShort,
      Value.textsShort, hs]), ?_, castChar_val_of_le _ hs, ?_⟩
    · simp [Buffer.GetDataAsString, wireAll, wire, getSize, getSizeSimple, hm]
      omega
    · simp [Buffer.GetSize, getSize, getSizeSimple]
  · rw [construct_short heap [.text helloGuys] rfl]
    decide

theorem text_encoding_witness :
    hello.length ≤ 255 ∧
      ∃ b, Buffer.construct zeroHeap [.text hello] = some b ∧
        b.GetDataAsString = castChar hello.length :: hello ∧
        (castChar hello.length).val = hello.length ∧ b.GetSize = 1 + hello.length :=
  ⟨by decide, (text_encoding zeroHeap).1 hello (by decide)⟩

/-- C6: for every sequence of `n ≤ 255` within-limit elements, the first `GetSize()` bytes
of its buffer are the single byte `n` followed by the contents of the buffers of the
elements, in order, with nothing between them; the vector `0x12, 0x34, 0x56` gives `03 12 34 56`,
length 4. -/
theorem sequence_encoding (heap : Nat → Byte) :
    (∀ xs : List Value, xs.length ≤ 255 → Value.allWithinLimits xs = true →
      ∃ b es, Buffer.construct heap [.seq xs] = some b ∧
        List.Forall₂ (fun x e => Buffer.construct heap [x] = some e) xs es ∧
        b.GetDataAsString = castChar xs.length :: (es.map Buffer.GetDataAsString).flatten ∧
        (castChar xs.length).val = xs.length) ∧
    Buffer.construct heap [vec_res1] = some ⟨4, [0x03, 0x12, 0x34, 0x56]⟩ := by
  refine ⟨?_, ?_⟩
  · intro xs hn _
    obtain ⟨b, e, _, _, c4⟩ := construct_spec heap [.seq xs]
    obtain ⟨es, f, j, _⟩ := construct_each heap xs
    refine ⟨b, es, e, f, ?_, castChar_val_of_le _ hn⟩
    rw [Buffer.GetDataAsString, c4, j]
    simp [wireAll, wire]
  · rw [construct_short heap [vec_res1] rfl]
    decide

theorem sequence_encoding_witness :
    [Value.text hello, Value.text helloGuys].length ≤ 255 ∧
      Value.allWithinLimits [.text hello, .text helloGuys] = true ∧
      ∃ b es, Buffer.construct zeroHeap [.seq [.text hello, .text helloGuys]] = some b ∧
        List.Forall₂ (fun x e => Buffer.construct zeroHeap [x] = some e)
          [.text hello, .text helloGuys] es ∧
        b.GetDataAsString = castChar [Value.text hello, Value.text helloGuys].length ::
          (es.map Buffer.GetDataAsString).flatten ∧
        (castChar [Value.text hello, Value.text helloGuys].length).val
          = [Value.text hello, Value.text helloGuys].length :=
  ⟨by decide, by decide,
    (sequence_encoding zeroHeap).1 [.text hello, .text helloGuys] (by decide) (by decide)⟩

/-- C7: for every tuple of within-limit slots, the first `GetSize()` bytes of its buffer are
exactly the contents of the buffers of the slots, in declared order, with no count or
length prefix; `(int8 0x12, int16 0x0080)` gives `12 80 00` (size 3) and
`(int8 0x12, hello)` gives `12 05 68 65 6C 6C 6F` (size 7). -/
theorem tuple_encoding (heap : Nat → Byte) :
    (∀ xs : List Value, Value.allWithinLimits xs = true →
      ∃ b es, Buffer.construct heap [.tuple xs] = some b ∧
        List.Forall₂ (fun x e => Buffer.construct heap [x] = some e) xs es ∧
        b.GetDataAsString = (es.map Buffer.GetDataAsString).flatten ∧
        b.GetSize = (es.map Buffer.GetSize).sum) ∧
    Buffer.construct heap [tup_res1] = some ⟨3, [0x12, 0x80, 0x00]⟩ ∧
    Buffer.construct heap [tup_res2]
      = some ⟨7, [0x12, 0x05, 0x68, 0x65, 0x6C, 0x6C, 0x6F]⟩ := by
  refine ⟨?_, ?_, ?_⟩
  · intro xs _
    obtain ⟨b, e, _, c3, c4⟩ := construct_spec heap [.tuple xs]
    obtain ⟨es, f, j, k⟩ := construct_each heap xs
    refine ⟨b, es, e, f, ?_, ?_⟩
    · rw [Buffer.GetDataAsString, c4, j]
      simp [wireAll, wire]
    · rw [Buffer.GetSize, c3, k]
      simp [wireAll, wire]
  · rw [construct_short heap [tup_res1] rfl]
    decide
  · rw [construct_short heap [tup_res2] rfl]
    decide

theorem tuple_encoding_witness :
    Value.allWithinLimits [.scalar .uint32 305419896, vec_res1] = true ∧
      ∃ b es, Buffer.construct zeroHeap [.tuple [.scalar .uint32 305419896, vec_res1]]
          = some b ∧
        List.Forall₂ (fun x e => Buffer.construct zeroHeap [x] = some e)
          [.scalar .uint32 305419896, vec_res1] es ∧
        b.GetDataAsString = (es.map Buffer.GetDataAsString).flatten ∧
        b.GetSize = (es.map Buffer.GetSize).sum :=
  ⟨by decide,
    (tuple_encoding zeroHeap).1 [.scalar .uint32 305419896, vec_res1] (by decide)⟩

/-- C8: whatever the prior heap contents, the buffer of the sequence of the three tuples
`(0x12, hello)`, `(0x34, guys)`, `(0x56, !)` has `GetSize()` 17 and exactly the bytes
`03 12 05 68 65 6C 6C 6F 34 04 67 75 79 73 56 01 21`, and `GetArgumentsAndSize` on those
bytes, for a sequence of (Scalar-1, Text) tuples, returns the original sequence and 17. -/
theorem nested_example (heap : Nat → Byte) :
    Buffer.construct heap [vec_res3] = some ⟨17, vec_res3_bytes⟩ ∧
    (∀ b, Buffer.construct heap [vec_res3] = some b →
      b.GetSize = 17 ∧ b.GetData = vec_res3_bytes ∧ b.GetDataAsString = vec_res3_bytes) ∧
    GetArgumentsAndSize vec_res3_type vec_res3_bytes = some (vec_res3, 17) := by
  have e : Buffer.construct heap [vec_res3] = some ⟨17, vec_res3_bytes⟩ := by
    rw [construct_short heap [vec_res3] rfl]
    decide
  refine ⟨e, ?_, rfl⟩
  intro b hb
  rw [e] at hb
  cases hb
  exact ⟨rfl, rfl, rfl⟩

/-- C9: for every argument list, the first `GetSize()` bytes of the buffer are the
contents of the buffers of the single arguments, in argument order, back to back with no
separator, prefix or length header, and `GetSize()` is the sum of their sizes. -/
theorem toplevel_concatenation (heap : Nat → Byte) (args : List Value) :
    ∃ b es, Buffer.construct heap args = some b ∧
      List.Forall₂ (fun a e => Buffer.construct heap [a] = some e) args es ∧
      b.GetDataAsString = (es.map Buffer.GetDataAsString).flatten ∧
      b.GetSize = (es.map Buffer.GetSize).sum := by
  obtain ⟨b, e, _, c3, c4⟩ := construct_spec heap args
  obtain ⟨es, f, j, k⟩ := construct_each heap args
  exact ⟨b, es, e, f, by rw [Buffer.GetDataAsString, c4, j], by rw [Buffer.GetSize, c3, k]⟩

/-- C10: `getSizeSimple` returns `sizeof` (1, 2 or 4) for a scalar, 1 + the byte length
for a text, 1 + the sum of the sizes of all elements for a sequence and the sum of the
sizes of all slots for a tuple; nothing is truncated at 255: a text of 300 bytes counts
301 and a sequence of 300 one-byte elements counts 301. -/
theorem getSizeSimple_recursion :
    (∀ (t : ScalarTy) (v : Int), getSizeSimple (.scalar t v) = t.sizeof ∧
      (t.sizeof = 1 ∨ t.sizeof = 2 ∨ t.sizeof = 4)) ∧
    (∀ s : List Byte, getSizeSimple (.text s) = 1 + s.length) ∧
    (∀ xs : List Value, getSizeSimple (.seq xs) = 1 + (xs.map getSizeSimple).sum) ∧
    (∀ xs : List Value, getSizeSimple (.tuple xs) = (xs.map getSizeSimple).sum) ∧
    getSizeSimple (.text (List.replicate 300 0)) = 301 ∧
    getSizeSimple (.seq (List.replicate 300 (.scalar .uint8 0))) = 301 := by
  refine ⟨?_, ?_, ?_, ?_, ?_, ?_⟩
  · intro t v
    exact ⟨by simp [getSizeSimple], by cases t <;> simp [ScalarTy.sizeof]⟩
  · intro s
    simp [getSizeSimple]
  · intro xs
    simp [getSizeSimple, getSize_eq_sum]
  · intro xs
    simp [getSizeSimple, getSize_eq_sum]
  · simp only [getSizeSimple, List.length_replicate]
  · simp only [getSizeSimple, getSize_eq_sum, List.map_replicate, List.sum_replicate,
      ScalarTy.sizeof, smul_eq_mul]

/-! ## The decoder on arbitrary buffers -/

/-- C11: for every within-limit value `v` of shape `T` and every list `t` of trailing
bytes, `GetArgumentsAndSize<T>` on the data of `Buffer(v)` followed by `t` returns `v` and
the size of `v`, as it does without the trailing bytes. -/
theorem decode_embedded (heap : Nat → Byte) (T : Shape) (v : Value) (t : List Byte)
    (hs : v.hasShape T = true) (hl : v.withinLimits = true) :
    ∃ b, Buffer.construct heap [v] = some b ∧ b.GetSize = getSizeSimple v ∧
      GetArgumentsAndSize T (b.GetData ++ t) = some (v, getSizeSimple v) ∧
      GetArgumentsAndSize T b.GetData = some (v, getSizeSimple v) := by
  have hlen := wire_length_eq v (textsShort_of_withinLimits v hl)
  refine ⟨_, construct_short heap [v] (allTextsShort_single v hl), ?_, ?_, ?_⟩
  · simp [Buffer.GetSize, getSize_single]
  · have h := retrieveArg_wire v T (wireAll [v] ++ t) 0 hs hl (by simp [wireAll_single])
    simpa [GetArgumentsAndSize, Buffer.GetData, hlen] using h
  · have h := retrieveArg_wire v T (wireAll [v]) 0 hs hl (by simp [wireAll_single])
    simpa [GetArgumentsAndSize, Buffer.GetData, hlen] using h

theorem decode_embedded_witness :
    vec_res3.hasShape vec_res3_type = true ∧ vec_res3.withinLimits = true ∧
      ∃ b, Buffer.construct zeroHeap [vec_res3] = some b ∧
        b.GetSize = getSizeSimple vec_res3 ∧
        GetArgumentsAndSize vec_res3_type (b.GetData ++ helloGuys)
          = some (vec_res3, getSizeSimple vec_res3) ∧
        GetArgumentsAndSize vec_res3_type b.GetData = some (vec_res3, getSizeSimple vec_res3) :=
  ⟨by decide, by decide,
    decode_embedded zeroHeap vec_res3_type vec_res3 helloGuys (by decide) (by decide)⟩

/-- C12: for every byte buffer and every shape, the first component of
`GetArgumentsAndSize<T>(Data)` is `GetArguments<T>(Data)`; both run `retrieveArg` with the
cursor starting at 0 (and both are undefined on the same buffers). -/
theorem entry_points_agree (T : Shape) (Data : List Byte) :
    (GetArgumentsAndSize T Data).map Prod.fst = GetArguments T Data ∧
      GetArgumentsAndSize T Data = retrieveArg T Data 0 ∧
      GetArguments T Data = (retrieveArg T Data 0).map Prod.fst :=
  ⟨rfl, rfl, rfl⟩

/-- C14: for every buffer and cursor `c` such that the byte at `c` has unsigned value `L`
and the positions `c + 1 .. c + L` exist, `retrieveArg` for a text returns the text made of
exactly the `L` bytes at those positions, in order, and advances the cursor by `1 + L`. -/
theorem text_decoding (D : List Byte) (c : Nat) (L : Byte) (h0 : D[c]? = some L)
    (hfit : c + 1 + L.val ≤ D.length) :
    ∃ s, retrieveArg .text D c = some (.text s, c + (1 + L.val)) ∧ s.length = L.val ∧
      ∀ i, i < L.val → s[i]? = D[c + 1 + i]? := by
  refine ⟨(D.drop (c + 1)).take L.val, ?_, ?_, ?_⟩
  · simp only [retrieveArg, retrieveString]
    rw [h0]
    simp only []
    rw [if_pos hfit, Nat.add_assoc]
  · rw [List.length_take, List.length_drop]
    omega
  · intro i hi
    rw [List.getElem?_take, if_pos hi, List.getElem?_drop]

theorem text_decoding_witness :
    vec_res3_bytes[2]? = some 5 ∧ 2 + 1 + (5 : Byte).val ≤ vec_res3_bytes.length ∧
      ∃ s, retrieveArg .text vec_res3_bytes 2 = some (.text s, 2 + (1 + (5 : Byte).val)) ∧
        s.length = (5 : Byte).val ∧ ∀ i, i < (5 : Byte).val → s[i]? = vec_res3_bytes[2 + 1 + i]? :=
  ⟨by decide, by decide, text_decoding vec_res3_bytes 2 5 (by decide) (by decide)⟩

theorem staticCast_inv (t : ScalarTy) (bits : Nat) (hb : bits < 2 ^ (8 * t.sizeof)) :
    t.inRange (staticCast t bits) = true ∧ t.unsignedRep (staticCast t bits) = bits := by
  cases t <;>
    simp only [ScalarTy.sizeof, Nat.reduceMul, Nat.reducePow] at hb <;>
    simp only [staticCast, ScalarTy.inRange, ScalarTy.minVal, ScalarTy.maxVal,
      ScalarTy.unsignedRep, ScalarTy.signed, ScalarTy.sizeof, Nat.reduceMul, Nat.reducePow,
      Nat.reduceSub, Bool.true_and, Bool.false_and, decide_eq_true_eq, Bool.false_eq_true,
      if_false, if_true, Bool.and_eq_true] <;>
    (try split_ifs) <;>
    omega

theorem retrieveScalar_any (t : ScalarTy) (D : List Byte) (c : Nat)
    (h : c + t.sizeof ≤ D.length) :
    ∃ v, retrieveScalar t D c = some (.scalar t v, c + t.sizeof) ∧ t.inRange v = true ∧
      t.unsignedRep v = leValue ((D.drop c).take t.sizeof) := by
  have hp : (D.drop c).take t.sizeof <+: D.drop c := List.take_prefix _ _
  have hlen : ((D.drop c).take t.sizeof).length = t.sizeof := by
    rw [List.length_take, List.length_drop]
    omega
  generalize (D.drop c).take t.sizeof = l at hp hlen
  have one : t.sizeof = 1 → ∃ v, retrieveScalar t D c = some (.scalar t v, c + t.sizeof) ∧
      t.inRange v = true ∧ t.unsignedRep v = leValue l := by
    intro hs
    rw [hs] at hlen
    match l, hlen, hp with
    | [d0], _, hp =>
      have g0 := getElem_of_lead hp 0 (by simp)
      simp only [Nat.add_zero, List.getElem?_cons_zero] at g0
      have hi := staticCast_inv t d0.val (by rw [hs]; have := d0.isLt; omega)
      refine ⟨staticCast t d0.val, ?_, hi.1, ?_⟩
      · simp only [retrieveScalar, hs]
        rw [g0]
      · rw [hi.2]
        simp [leValue]
  have two : t.sizeof = 2 → ∃ v, retrieveScalar t D c = some (.scalar t v, c + t.sizeof) ∧
      t.inRange v = true ∧ t.unsignedRep v = leValue l := by
    intro hs
    rw [hs] at hlen
    match l, hlen, hp with
    | [d0, d1], _, hp =>
      have g0 := getElem_of_lead hp 0 (by simp)
      have g1 := getElem_of_lead hp 1 (by simp)
      simp only [Nat.add_zero, List.getElem?_cons_zero, List.getElem?_cons_succ] at g0 g1
      have ho := or_bytes2 _ _ d0.isLt d1.isLt
      have hi := staticCast_inv t (d0.val + 256 * d1.val)
        (by rw [hs]; have := d0.isLt; have := d1.isLt; omega)
      refine ⟨staticCast t (d0.val + 256 * d1.val), ?_, hi.1, ?_⟩
      · simp only [retrieveScalar, hs]
        rw [g0, g1]
        simp only [ho]
      · rw [hi.2]
        simp [leValue]
  have four : t.sizeof = 4 → ∃ v, retrieveScalar t D c = some (.scalar t v, c + t.sizeof) ∧
      t.inRange v = true ∧ t.unsignedRep v = leValue l := by
    intro hs
    rw [hs] at hlen
    match l, hlen, hp with
    | [d0, d1, d2, d3], _, hp =>
      have g0 := getElem_of_lead hp 0 (by simp)
      have g1 := getElem_of_lead hp 1 (by simp)
      have g2 := getElem_of_lead hp 2 (by simp)
      have g3 := getElem_of_lead hp 3 (by simp)
      simp only [Nat.add_zero, List.getElem?_cons_zero, List.getElem?_cons_succ] at g0 g1 g2 g3
      have ho := or_bytes4 _ _ _ _ d0.isLt d1.isLt d2.isLt d3.isLt
      have hi := staticCast_inv t
        (d0.val + 256 * d1.val + 65536 * d2.val + 16777216 * d3.val)
        (by rw [hs]; have := d0.isLt; have := d1.isLt; have := d2.isLt; have := d3.isLt; omega)
      refine ⟨staticCast t (d0.val + 256 * d1.val + 65536 * d2.val + 16777216 * d3.val),
        ?_, hi.1, ?_⟩
      · simp only [retrieveScalar, hs]
        rw [g0, g1, g2, g3]
        simp only [ho]
      · rw [hi.2]
        simp [leValue]
        omega
  cases t
  · exact one rfl
  · exact one rfl
  · exact two rfl
  · exact two rfl
  · exact four rfl
  · exact four rfl

/-- C13: for every integer type of width `N` in 1, 2, 4, every buffer and every cursor `c`
with `N` bytes `b0 .. b(N-1)` at positions `c .. c + N - 1`, `retrieveArg` returns the value
of the type whose unsigned representation is `b0 + 256 * b1 + ...` (so `00 80` is `-32768`
as `int16_t` and `32768` as `uint16_t`) and advances the cursor by exactly `N`. -/
theorem scalar_decoding :
    (∀ (t : ScalarTy) (D : List Byte) (c : Nat), c + t.sizeof ≤ D.length →
      ∃ v, retrieveArg (.scalar t) D c = some (.scalar t v, c + t.sizeof) ∧
        t.inRange v = true ∧ t.unsignedRep v = leValue ((D.drop c).take t.sizeof)) ∧
    (∀ t : ScalarTy, t.sizeof = 1 ∨ t.sizeof = 2 ∨ t.sizeof = 4) ∧
    retrieveArg (.scalar .int16) [0x00, 0x80] 0 = some (.scalar .int16 (-32768), 2) ∧
    retrieveArg (.scalar .uint16) [0x00, 0x80] 0 = some (.scalar .uint16 32768, 2) := by
  refine ⟨?_, ?_, rfl, rfl⟩
  · intro t D c h
    simpa only [retrieveArg] using retrieveScalar_any t D c h
  · intro t
    cases t <;> simp [ScalarTy.sizeof]

theorem scalar_decoding_witness :
    1 + ScalarTy.uint32.sizeof ≤ ([0x07, 0x78, 0x56, 0x34, 0x12] : List Byte).length ∧
      ∃ v, retrieveArg (.scalar .uint32) [0x07, 0x78, 0x56, 0x34, 0x12] 1
          = some (.scalar .uint32 v, 1 + ScalarTy.uint32.sizeof) ∧
        ScalarTy.uint32.inRange v = true ∧
        ScalarTy.uint32.unsignedRep v
          = leValue ((([0x07, 0x78, 0x56, 0x34, 0x12] : List Byte).drop 1).take
              ScalarTy.uint32.sizeof) :=
  ⟨by decide, scalar_decoding.1 .uint32 [0x07, 0x78, 0x56, 0x34, 0x12] 1 (by decide)⟩

/-- The loop returns `xs` and `c1` exactly when there are cursors `cs`, one before each
element and one after the last, along which `retrieve` yields the elements in turn. -/
theorem retrieveLoop_iff (f : Nat → Option (Value × Nat)) :
    ∀ (n c : Nat) (xs : List Value) (c1 : Nat),
      retrieveLoop f n c = some (xs, c1) ↔
        ∃ cs : List Nat, xs.length = n ∧ cs.length = n + 1 ∧ cs[0]? = some c ∧
          cs[n]? = some c1 ∧
          ∀ i, i < n → ∃ x a a1, xs[i]? = some x ∧ cs[i]? = some a ∧ cs[i + 1]? = some a1 ∧
            f a = some (x, a1)
  | 0, c, xs, c1 => by
    simp only [retrieveLoop, Option.some.injEq, Prod.mk.injEq]
    constructor
    · rintro ⟨rfl, rfl⟩
      exact ⟨[c], rfl, rfl, rfl, rfl, fun i hi => absurd hi (Nat.not_lt_zero i)⟩
    · rintro ⟨cs, hx, _, h0, h1, _⟩
      rw [h0] at h1
      exact ⟨(List.length_eq_zero.mp hx).symm, Option.some.inj h1⟩
  | n + 1, c, xs, c1 => by
    constructor
    · intro h
      simp only [retrieveLoop] at h
      cases hf : f c with
      | none => simp [hf] at h
      | some p =>
        obtain ⟨x, a1⟩ := p
        simp only [hf] at h
        cases hr : retrieveLoop f n a1 with
        | none => simp [hr] at h
        | some q =>
          obtain ⟨ys, c2⟩ := q
          simp only [hr, Option.some.injEq, Prod.mk.injEq] at h
          obtain ⟨rfl, rfl⟩ := h
          obtain ⟨cs, hx, hc, h0, h1, hall⟩ := (retrieveLoop_iff f n a1 ys c2).mp hr
          refine ⟨c :: cs, by simp [hx], by simp [hc], by simp, by simpa using h1, ?_⟩
          intro i hi
          cases i with
          | zero => exact ⟨x, c, a1, by simp, by simp, by simpa using h0, hf⟩
          | succ j =>
            obtain ⟨y, a, a2, e1, e2, e3, e4⟩ := hall j (by omega)
            exact ⟨y, a, a2, by simpa using e1, by simpa using e2, by simpa using e3, e4⟩
    · rintro ⟨cs, hx, hc, h0, h1, hall⟩
      obtain ⟨x, a, a1, e1, e2, e3, e4⟩ := hall 0 (by omega)
      match xs, cs, hx, hc with
      | y :: ys, b :: cs1, hx, hc =>
        simp only [List.getElem?_cons_zero, Option.some.injEq] at e1 e2 h0
        simp only [Nat.zero_add, List.getElem?_cons_succ] at e3
        subst e1 e2 h0
        have hr : retrieveLoop f n a1 = some (ys, c1) := by
          refine (retrieveLoop_iff f n a1 ys c1).mpr ⟨cs1, by simpa using hx, by simpa using hc,
            e3, by simpa using h1, ?_⟩
          intro i hi
          obtain ⟨z, p, p1, g1, g2, g3, g4⟩ := hall (i + 1) (by omega)
          exact ⟨z, p, p1, by simpa using g1, by simpa using g2, by simpa using g3, g4⟩
        simp only [retrieveLoop, e4, hr]

/-- C15: for every buffer and cursor `c` whose byte at `c` has unsigned value `k`,
`retrieveArg` for a sequence of `T` is defined exactly when the `k` element decodings are,
element `0` starting at `c + 1` and element `i` at the cursor left by element `i - 1`; it
then returns exactly these `k` elements and the cursor left by the last one (`c + 1` when
`k = 0`). -/
theorem sequence_decoding (T : Shape) (D : List Byte) (c : Nat) (k : Byte)
    (hk : D[c]? = some k) :
    (∀ (out : Value) (c1 : Nat), retrieveArg (.seq T) D c = some (out, c1) ↔
      ∃ (xs : List Value) (cs : List Nat), out = .seq xs ∧ xs.length = k.val ∧
        cs.length = k.val + 1 ∧ cs[0]? = some (c + 1) ∧ cs[k.val]? = some c1 ∧
        ∀ i, i < k.val → ∃ x a a1, xs[i]? = some x ∧ cs[i]? = some a ∧
          cs[i + 1]? = some a1 ∧ retrieveArg T D a = some (x, a1)) ∧
    (k.val = 0 → retrieveArg (.seq T) D c = some (.seq [], c + 1)) := by
  constructor
  · intro out c1
    simp only [retrieveArg]
    rw [hk]
    simp only []
    constructor
    · intro h
      cases hr : retrieveLoop (retrieveArg T D) k.val (c + 1) with
      | none => simp [hr] at h
      | some q =>
        obtain ⟨xs, c2⟩ := q
        simp only [hr, Option.some.injEq, Prod.mk.injEq] at h
        obtain ⟨rfl, rfl⟩ := h
        obtain ⟨cs, h1, h2, h3, h4, h5⟩ := (retrieveLoop_iff _ _ _ _ _).mp hr
        exact ⟨xs, cs, rfl, h1, h2, h3, h4, h5⟩
    · rintro ⟨xs, cs, rfl, h1, h2, h3, h4, h5⟩
      have hr := (retrieveLoop_iff (retrieveArg T D) k.val (c + 1) xs c1).mpr
        ⟨cs, h1, h2, h3, h4, h5⟩
      simp only [hr]
  · intro h0
    simp only [retrieveArg]
    rw [hk]
    simp only [h0, retrieveLoop]

theorem sequence_decoding_witness :
    ([0x03, 0x12, 0x34, 0x56] : List Byte)[0]? = some 3 ∧
      ((∀ (out : Value) (c1 : Nat),
        retrieveArg (.seq (.scalar .int8)) [0x03, 0x12, 0x34, 0x56] 0 = some (out, c1) ↔
        ∃ (xs : List Value) (cs : List Nat), out = .seq xs ∧ xs.length = (3 : Byte).val ∧
          cs.length = (3 : Byte).val + 1 ∧ cs[0]? = some (0 + 1) ∧
          cs[(3 : Byte).val]? = some c1 ∧
          ∀ i, i < (3 : Byte).val → ∃ x a a1, xs[i]? = some x ∧ cs[i]? = some a ∧
            cs[i + 1]? = some a1 ∧
            retrieveArg (.scalar .int8) [0x03, 0x12, 0x34, 0x56] a = some (x, a1)) ∧
      ((3 : Byte).val = 0 →
        retrieveArg (.seq (.scalar .int8)) [0x03, 0x12, 0x34, 0x56] 0 = some (.seq [], 0 + 1))) :=
  ⟨by decide, sequence_decoding (.scalar .int8) [0x03, 0x12, 0x34, 0x56] 0 3 (by decide)⟩

/-! ## At and beyond the limits of the one-byte count -/

theorem castChar_val_nat (n : Nat) : (castChar n).val = n % 256 := by
  show ((n : Int) % 256).toNat = n % 256
  omega

/-- The first cell of a constructed buffer holds the first byte of the reference layout. -/
theorem construct_head (heap : Nat → Byte) (args : List Value) (x : Byte) (r : List Byte)
    (hw : wireAll args = x :: r) :
    ∃ b, Buffer.construct heap args = some b ∧ b.data[0]? = some x ∧
      b.size = r.length + 1 ∧ b.data.take b.size = x :: r := by
  obtain ⟨b, e, _, sz, t⟩ := construct_spec heap args
  rw [hw] at sz t
  simp only [List.length_cons] at sz
  refine ⟨b, e, ?_, sz, t⟩
  have h0 : (b.data.take b.size)[0]? = some x := by rw [t]; simp
  rw [List.getElem?_take, if_pos (by omega)] at h0
  exact h0

/-- C16: every text of exactly 255 bytes, and every sequence of exactly 255 within-limit
elements of a shape, round-trips: decoding the data of its buffer returns the original
value and a bytes-consumed count equal to `GetSize()`, which is 256 for the text and
1 + the sum of the element sizes for the sequence. -/
theorem boundary_255 (heap : Nat → Byte) :
    (∀ s : List Byte, s.length = 255 →
      ∃ b, Buffer.construct heap [.text s] = some b ∧
        GetArgumentsAndSize .text b.GetData = some (.text s, b.GetSize) ∧ b.GetSize = 256) ∧
    (∀ (e : Shape) (xs : List Value), xs.length = 255 → Value.allHaveShape xs e = true →
      Value.allWithinLimits xs = true →
      ∃ b, Buffer.construct heap [.seq xs] = some b ∧
        GetArgumentsAndSize (.seq e) b.GetData = some (.seq xs, b.GetSize) ∧
        b.GetSize = 1 + (xs.map getSizeSimple).sum) := by
  constructor
  · intro s hs
    obtain ⟨b, e, g, r⟩ := decode_construct heap .text (.text s) rfl
      (by simp [Value.withinLimits, hs])
    exact ⟨b, e, r, by rw [g]; simp [getSize, getSizeSimple, hs]⟩
  · intro e xs hn hsh hl
    obtain ⟨b, c, g, r⟩ := decode_construct heap (.seq e) (.seq xs)
      (by simpa [Value.hasShape] using hsh) (by simp [Value.withinLimits, hn, hl])
    exact ⟨b, c, r, by rw [g]; simp [getSize, getSizeSimple, getSize_eq_sum]⟩

theorem boundary_255_witness :
    ((List.replicate 255 (65 : Byte)).length = 255 ∧
      ∃ b, Buffer.construct zeroHeap [.text (List.replicate 255 65)] = some b ∧
        GetArgumentsAndSize .text b.GetData = some (.text (List.replicate 255 65), b.GetSize) ∧
        b.GetSize = 256) ∧
    ((List.replicate 255 tup_res2).length = 255 ∧
      Value.allHaveShape (List.replicate 255 tup_res2) (.tuple [.scalar .int8, .text]) = true ∧
      Value.allWithinLimits (List.replicate 255 tup_res2) = true ∧
      ∃ b, Buffer.construct zeroHeap [.seq (List.replicate 255 tup_res2)] = some b ∧
        GetArgumentsAndSize (.seq (.tuple [.scalar .int8, .text])) b.GetData
          = some (.seq (List.replicate 255 tup_res2), b.GetSize) ∧
        b.GetSize = 1 + ((List.replicate 255 tup_res2).map getSizeSimple).sum) :=
  ⟨⟨by decide, (boundary_255 zeroHeap).1 (List.replicate 255 65) (by decide)⟩,
    ⟨by decide, by decide, by decide,
      (boundary_255 zeroHeap).2 (.tuple [.scalar .int8, .text]) (List.replicate 255 tup_res2)
        (by decide) (by decide) (by decide)⟩⟩

/-- C17: constructing a buffer never fails, and for every text `s` of `L` bytes (also for
`L ≥ 256`) the first `GetSize()` bytes of `Buffer(s)` are the byte `L mod 256` followed by
the first `L mod 256` bytes of `s`, and `GetSize()` is `1 + (L mod 256)`; a text of 300
bytes gives the byte 44, 44 bytes of text and size 45. -/
theorem text_length_truncated (heap : Nat → Byte) :
    (∀ args : List Value, ∃ b, Buffer.construct heap args = some b) ∧
    (∀ s : List Byte, ∃ b, Buffer.construct heap [.text s] = some b ∧
      b.GetDataAsString = castChar s.length :: s.take (s.length % 256) ∧
      (castChar s.length).val = s.length % 256 ∧ b.GetSize = 1 + s.length % 256) ∧
    (∃ b, Buffer.construct heap [.text (List.replicate 300 7)] = some b ∧
      b.GetDataAsString = 44 :: List.replicate 44 7 ∧ b.GetSize = 45) := by
  have main : ∀ s : List Byte, ∃ b, Buffer.construct heap [.text s] = some b ∧
      b.GetDataAsString = castChar s.length :: s.take (s.length % 256) ∧
      (castChar s.length).val = s.length % 256 ∧ b.GetSize = 1 + s.length % 256 := by
    intro s
    obtain ⟨b, e, _, sz, t⟩ := construct_spec heap [.text s]
    have hm : s.length % 256 ≤ s.length := Nat.mod_le _ _
    refine ⟨b, e, ?_, castChar_val_nat _, ?_⟩
    · rw [Buffer.GetDataAsString, t]
      simp [wireAll, wire]
    · rw [Buffer.GetSize, sz]
      simp [wireAll, wire, List.length_take]
      omega
  refine ⟨fun args => ?_, main, ?_⟩
  · obtain ⟨b, e, _⟩ := construct_spec heap args
    exact ⟨b, e⟩
  · obtain ⟨b, e, d, _, g⟩ := main (List.replicate 300 7)
    refine ⟨b, e, ?_, ?_⟩
    · rw [d]
      simp only [List.length_replicate, Nat.reduceMod, List.take_replicate]
      decide
    · rw [g]
      simp only [List.length_replicate, Nat.reduceMod]

/-- C18: for every sequence of `n` elements (also for `n ≥ 256`) the encoder writes the
count byte `n mod 256` and then encodes each of the `n` elements in order: the first
`GetSize()` bytes are that byte followed by the contents of the buffers of all `n`
elements, and `GetSize()` is 1 + the sum of their sizes. -/
theorem sequence_count_truncated (heap : Nat → Byte) (xs : List Value) :
    ∃ b es, Buffer.construct heap [.seq xs] = some b ∧
      List.Forall₂ (fun x e => Buffer.construct heap [x] = some e) xs es ∧
      es.length = xs.length ∧
      b.GetDataAsString = castChar xs.length :: (es.map Buffer.GetDataAsString).flatten ∧
      (castChar xs.length).val = xs.length % 256 ∧
      b.GetSize = 1 + (es.map Buffer.GetSize).sum := by
  obtain ⟨b, e, _, c3, c4⟩ := construct_spec heap [.seq xs]
  obtain ⟨es, f, j, k⟩ := construct_each heap xs
  refine ⟨b, es, e, f, f.length_eq.symm, ?_, castChar_val_nat _, ?_⟩
  · rw [Buffer.GetDataAsString, c4, j]
    simp [wireAll, wire]
  · rw [Buffer.GetSize, c3, k]
    simp [wireAll, wire]
    omega

/-- C19: the wire format has no type tags. The buffers of the text `A`, of the sequence of
one Scalar-1 `0x41` and of the tuple `(int8 1, int8 0x41)` all hold the bytes `01 41`;
decoding them as a sequence of Scalar-1 returns the sequence of `0x41` with 2 bytes
consumed and as an unsigned Scalar-2 returns `0x4101` with 2 bytes consumed, values that
are not the text that was encoded. -/
theorem no_type_tags (heap : Nat → Byte) :
    Buffer.construct heap [.text [0x41]] = some ⟨2, [0x01, 0x41]⟩ ∧
    Buffer.construct heap [.seq [.scalar .int8 0x41]] = some ⟨2, [0x01, 0x41]⟩ ∧
    Buffer.construct heap [.tuple [.scalar .int8 1, .scalar .int8 0x41]]
      = some ⟨2, [0x01, 0x41]⟩ ∧
    GetArgumentsAndSize (.seq (.scalar .int8)) [0x01, 0x41]
      = some (.seq [.scalar .int8 0x41], 2) ∧
    GetArgumentsAndSize (.scalar .uint16) [0x01, 0x41] = some (.scalar .uint16 0x4101, 2) ∧
    Value.seq [.scalar .int8 0x41] ≠ Value.text [0x41] ∧
    Value.scalar .uint16 0x4101 ≠ Value.text [0x41] ∧
    (Value.text [0x41]).hasShape (.seq (.scalar .int8)) = false ∧
    (Value.text [0x41]).hasShape (.scalar .uint16) = false := by
  refine ⟨?_, ?_, ?_, rfl, rfl, ?_, ?_, rfl, rfl⟩
  · rw [construct_short heap [.text [0x41]] rfl]
    decide
  · rw [construct_short heap [.seq [.scalar .int8 0x41]] rfl]
    decide
  · rw [construct_short heap [.tuple [.scalar .int8 1, .scalar .int8 0x41]] rfl]
    decide
  · intro h
    cases h
  · intro h
    cases h

/-- C20: for every text of exactly 256 bytes and every sequence of exactly 256 elements,
decoding the data of its buffer with the same shape does not return the original value:
the count byte is 0, so it returns the empty text, or the empty sequence, with 1 byte
consumed. -/
theorem limit_is_tight (heap : Nat → Byte) :
    (∀ s : List Byte, s.length = 256 →
      ∃ b, Buffer.construct heap [.text s] = some b ∧ b.GetData[0]? = some 0 ∧
        GetArgumentsAndSize .text b.GetData = some (.text [], 1) ∧
        Value.text [] ≠ Value.text s) ∧
    (∀ (e : Shape) (xs : List Value), xs.length = 256 →
      ∃ b, Buffer.construct heap [.seq xs] = some b ∧ b.GetData[0]? = some 0 ∧
        GetArgumentsAndSize (.seq e) b.GetData = some (.seq [], 1) ∧
        Value.seq [] ≠ Value.seq xs) := by
  have hz : castChar ((256 : Nat) : Int) = 0 := by decide
  constructor
  · intro s hs
    obtain ⟨b, e, h0, _, _⟩ := construct_head heap [.text s] (castChar s.length)
      (s.take (s.length % 256)) (by simp [wireAll, wire])
    rw [hs, hz] at h0
    refine ⟨b, e, h0, ?_, ?_⟩
    · have hlen : 1 ≤ b.data.length := by
        have := (List.getElem?_eq_some_iff.mp h0).1
        omega
      simp only [GetArgumentsAndSize, Buffer.GetData, retrieveArg, retrieveString]
      rw [h0]
      simp [hlen]
    · intro h
      cases h
      simp at hs
  · intro e xs hn
    obtain ⟨b, c, h0, _, _⟩ := construct_head heap [.seq xs] (castChar xs.length)
      (wireAll xs) (by simp [wireAll, wire])
    rw [hn, hz] at h0
    refine ⟨b, c, h0, ?_, ?_⟩
    · simp only [GetArgumentsAndSize, Buffer.GetData, retrieveArg]
      rw [h0]
      simp [retrieveLoop]
    · intro h
      cases h
      simp at hn

theorem limit_is_tight_witness :
    (List.replicate 256 (65 : Byte)).length = 256 ∧
      ∃ b, Buffer.construct zeroHeap [.text (List.replicate 256 65)] = some b ∧
        b.GetData[0]? = some 0 ∧
        GetArgumentsAndSize .text b.GetData = some (.text [], 1) ∧
        Value.text [] ≠ Value.text (List.replicate 256 65) :=
  ⟨by decide, (limit_is_tight zeroHeap).1 (List.replicate 256 65) (by decide)⟩

/-! ## The cursor -/

theorem retrieveScalar_cursor (t : ScalarTy) (D : List Byte) (c : Nat) (out : Value)
    (c1 : Nat) (h : retrieveScalar t D c = some (out, c1)) :
    c1 = c + t.sizeof ∧ c + t.sizeof ≤ D.length := by
  cases t <;> simp only [retrieveScalar, ScalarTy.sizeof] at h <;> split at h <;>
    first
      | (rename_i heq
         simp only [Option.some.injEq, Prod.mk.injEq] at h
         have hb := (List.getElem?_eq_some_iff.mp heq).1
         simp only [ScalarTy.sizeof]
         refine ⟨h.2.symm, ?_⟩
         omega)
      | (simp at h)

theorem retrieveString_cursor (D : List Byte) (c : Nat) (out : Value) (c1 : Nat)
    (h : retrieveString D c = some (out, c1)) :
    ∃ L : Byte, D[c]? = some L ∧ c + 1 + L.val ≤ D.length ∧
      out = .text ((D.drop (c + 1)).take L.val) ∧ c1 = c + 1 + L.val := by
  simp only [retrieveString] at h
  split at h
  · rename_i L heq
    split at h
    · rename_i hfit
      simp only [Option.some.injEq, Prod.mk.injEq] at h
      exact ⟨L, heq, hfit, h.1.symm, h.2.symm⟩
    · simp at h
  · simp at h

theorem retrieveLoop_le (f : Nat → Option (Value × Nat))
    (hf : ∀ a x a1, f a = some (x, a1) → a ≤ a1) :
    ∀ (n c : Nat) (xs : List Value) (c1 : Nat), retrieveLoop f n c = some (xs, c1) → c ≤ c1
  | 0, c, xs, c1, h => by
    simp only [retrieveLoop, Option.some.injEq, Prod.mk.injEq] at h
    omega
  | n + 1, c, xs, c1, h => by
    simp only [retrieveLoop] at h
    cases hx : f c with
    | none => simp [hx] at h
    | some p =>
      obtain ⟨x, a1⟩ := p
      simp only [hx] at h
      cases hr : retrieveLoop f n a1 with
      | none => simp [hr] at h
      | some q =>
        obtain ⟨ys, c2⟩ := q
        simp only [hr, Option.some.injEq, Prod.mk.injEq] at h
        have h1 := hf c x a1 hx
        have h2 := retrieveLoop_le f hf n a1 ys c2 hr
        omega

mutual
theorem retrieveArg_mono : ∀ (T : Shape) (D : List Byte) (c : Nat) (out : Value) (c1 : Nat),
    retrieveArg T D c = some (out, c1) → c ≤ c1 ∧ (T.wellFormed = true → c < c1)
  | .scalar t, D, c, out, c1, h => by
    simp only [retrieveArg] at h
    have h1 := (retrieveScalar_cursor t D c out c1 h).1
    have h2 : 1 ≤ t.sizeof := by cases t <;> simp [ScalarTy.sizeof]
    exact ⟨by omega, fun _ => by omega⟩
  | .text, D, c, out, c1, h => by
    simp only [retrieveArg] at h
    obtain ⟨L, _, _, _, h1⟩ := retrieveString_cursor D c out c1 h
    exact ⟨by omega, fun _ => by omega⟩
  | .seq e, D, c, out, c1, h => by
    simp only [retrieveArg] at h
    cases hk : D[c]? with
    | none => simp [hk] at h
    | some k =>
      simp only [hk] at h
      cases hr : retrieveLoop (retrieveArg e D) k.val (c + 1) with
      | none => simp [hr] at h
      | some q =>
        obtain ⟨xs, c2⟩ := q
        simp only [hr, Option.some.injEq, Prod.mk.injEq] at h
        have h1 := retrieveLoop_le (retrieveArg e D)
          (fun a x a1 ha => (retrieveArg_mono e D a x a1 ha).1) k.val (c + 1) xs c2 hr
        exact ⟨by omega, fun _ => by omega⟩
  | .tuple ss, D, c, out, c1, h => by
    simp only [retrieveArg] at h
    cases hr : retrieveSlots ss D c with
    | none => simp [hr] at h
    | some q =>
      obtain ⟨xs, c2⟩ := q
      simp only [hr, Option.some.injEq, Prod.mk.injEq] at h
      obtain ⟨h1, h2⟩ := retrieveSlots_mono ss D c xs c2 hr
      refine ⟨by omega, fun hw => ?_⟩
      simp only [Shape.wellFormed, Bool.and_eq_true, Bool.not_eq_true', List.isEmpty_eq_false] at hw
      have := h2 hw.2 (by simpa using hw.1)
      omega
theorem retrieveSlots_mono : ∀ (ss : List Shape) (D : List Byte) (c : Nat) (xs : List Value)
    (c1 : Nat), retrieveSlots ss D c = some (xs, c1) →
    c ≤ c1 ∧ (Shape.allWellFormed ss = true → ss ≠ [] → c < c1)
  | [], D, c, xs, c1, h => by
    simp only [retrieveSlots, Option.some.injEq, Prod.mk.injEq] at h
    exact ⟨by omega, fun _ hne => absurd rfl hne⟩
  | s :: ss, D, c, xs, c1, h => by
    simp only [retrieveSlots] at h
    cases hx : retrieveArg s D c with
    | none => simp [hx] at h
    | some p =>
      obtain ⟨x, a1⟩ := p
      simp only [hx] at h
      cases hr : retrieveSlots ss D a1 with
      | none => simp [hr] at h
      | some q =>
        obtain ⟨ys, c2⟩ := q
        simp only [hr, Option.some.injEq, Prod.mk.injEq] at h
        obtain ⟨h1, h2⟩ := retrieveArg_mono s D c x a1 hx
        obtain ⟨h3, _⟩ := retrieveSlots_mono ss D a1 ys c2 hr
        refine ⟨by omega, fun hw _ => ?_⟩
        simp only [Shape.allWellFormed, Bool.and_eq_true] at hw
        have := h2 hw.1
        omega
end

/-- The slots return `xs` and `c1` exactly when there are cursors `cs`, one before each
slot and one after the last, along which the slot decoders yield the values in turn. -/
theorem retrieveSlots_iff (D : List Byte) :
    ∀ (ss : List Shape) (c : Nat) (xs : List Value) (c1 : Nat),
      retrieveSlots ss D c = some (xs, c1) ↔
        ∃ cs : List Nat, xs.length = ss.length ∧ cs.length = ss.length + 1 ∧
          cs[0]? = some c ∧ cs[ss.length]? = some c1 ∧
          ∀ i, i < ss.length → ∃ s x a a1, ss[i]? = some s ∧ xs[i]? = some x ∧
            cs[i]? = some a ∧ cs[i + 1]? = some a1 ∧ retrieveArg s D a = some (x, a1)
  | [], c, xs, c1 => by
    simp only [retrieveSlots, Option.some.injEq, Prod.mk.injEq, List.length_nil]
    constructor
    · rintro ⟨rfl, rfl⟩
      exact ⟨[c], rfl, rfl, rfl, rfl, fun i hi => absurd hi (Nat.not_lt_zero i)⟩
    · rintro ⟨cs, hx, _, h0, h1, _⟩
      rw [h0] at h1
      exact ⟨(List.length_eq_zero.mp hx).symm, Option.some.inj h1⟩
  | s :: ss, c, xs, c1 => by
    constructor
    · intro h
      simp only [retrieveSlots] at h
      cases hf : retrieveArg s D c with
      | none => simp [hf] at h
      | some p =>
        obtain ⟨x, a1⟩ := p
        simp only [hf] at h
        cases hr : retrieveSlots ss D a1 with
        | none => simp [hr] at h
        | some q =>
          obtain ⟨ys, c2⟩ := q
          simp only [hr, Option.some.injEq, Prod.mk.injEq] at h
          obtain ⟨rfl, rfl⟩ := h
          obtain ⟨cs, hx, hc, h0, h1, hall⟩ := (retrieveSlots_iff D ss a1 ys c2).mp hr
          refine ⟨c :: cs, by simp [hx], by simp [hc], by simp, by simpa using h1, ?_⟩
          intro i hi
          cases i with
          | zero => exact ⟨s, x, c, a1, by simp, by simp, by simp, by simpa using h0, hf⟩
          | succ j =>
            obtain ⟨t, y, a, a2, e0, e1, e2, e3, e4⟩ := hall j (by simpa using hi)
            exact ⟨t, y, a, a2, by simpa using e0, by simpa using e1, by simpa using e2,
              by simpa using e3, e4⟩
    · rintro ⟨cs, hx, hc, h0, h1, hall⟩
      obtain ⟨t, x, a, a1, e0, e1, e2, e3, e4⟩ := hall 0 (by simp)
      match xs, cs, hx, hc with
      | y :: ys, b :: cs1, hx, hc =>
        simp only [List.getElem?_cons_zero, Option.some.injEq] at e0 e1 e2 h0
        simp only [Nat.zero_add, List.getElem?_cons_succ] at e3
        subst e0 e1 e2 h0
        have hr : retrieveSlots ss D a1 = some (ys, c1) := by
          refine (retrieveSlots_iff D ss a1 ys c1).mpr ⟨cs1, by simpa using hx,
            by simpa using hc, e3, by simpa using h1, ?_⟩
          intro i hi
          obtain ⟨u, z, p, p1, g0, g1, g2, g3, g4⟩ := hall (i + 1) (by simpa using hi)
          exact ⟨u, z, p, p1, by simpa using g0, by simpa using g1, by simpa using g2,
            by simpa using g3, g4⟩
        simp only [retrieveSlots, e4, hr]

/-- C21: for every buffer, every shape a C++ type can have (each tuple with at least one
slot) and every starting cursor `c` on which decoding reads only existing bytes, the cursor
after `retrieveArg` is strictly greater than `c`; and for a tuple the decode is the chain
of the slot decodes from left to right, the first slot starting at `c` itself (no count
byte), the final cursor being the one the last slot leaves. -/
theorem cursor_monotone :
    (∀ (T : Shape) (D : List Byte) (c : Nat) (out : Value) (c1 : Nat),
      T.wellFormed = true → retrieveArg T D c = some (out, c1) → c < c1) ∧
    (∀ (ss : List Shape) (D : List Byte) (c : Nat) (out : Value) (c1 : Nat),
      retrieveArg (.tuple ss) D c = some (out, c1) ↔
        ∃ (xs : List Value) (cs : List Nat), out = .tuple xs ∧ xs.length = ss.length ∧
          cs.length = ss.length + 1 ∧ cs[0]? = some c ∧ cs[ss.length]? = some c1 ∧
          ∀ i, i < ss.length → ∃ s x a a1, ss[i]? = some s ∧ xs[i]? = some x ∧
            cs[i]? = some a ∧ cs[i + 1]? = some a1 ∧ retrieveArg s D a = some (x, a1)) := by
  constructor
  · intro T D c out c1 hw h
    exact (retrieveArg_mono T D c out c1 h).2 hw
  · intro ss D c out c1
    simp only [retrieveArg]
    constructor
    · intro h
      cases hr : retrieveSlots ss D c with
      | none => simp [hr] at h
      | some q =>
        obtain ⟨xs, c2⟩ := q
        simp only [hr, Option.some.injEq, Prod.mk.injEq] at h
        obtain ⟨rfl, rfl⟩ := h
        obtain ⟨cs, h1, h2, h3, h4, h5⟩ := (retrieveSlots_iff D ss c xs c2).mp hr
        exact ⟨xs, cs, rfl, h1, h2, h3, h4, h5⟩
    · rintro ⟨xs, cs, rfl, h1, h2, h3, h4, h5⟩
      have hr := (retrieveSlots_iff D ss c xs c1).mpr ⟨cs, h1, h2, h3, h4, h5⟩
      simp only [hr]

theorem cursor_monotone_witness :
    vec_res3_type.wellFormed = true ∧
      retrieveArg vec_res3_type vec_res3_bytes 0 = some (vec_res3, 17) ∧ 0 < 17 :=
  ⟨by decide, rfl, cursor_monotone.1 vec_res3_type vec_res3_bytes 0 vec_res3 17 (by decide) rfl⟩

/-! ## Writes and reads stay inside the allocation -/

mutual
theorem wire_length_lt : ∀ v : Value, v.textsShort = false → (wire v).length < getSizeSimple v
  | .scalar _ _, h => by simp [Value.textsShort] at h
  | .text s, h => by
    simp only [Value.textsShort, decide_eq_false_iff_not, Nat.not_le] at h
    have := Nat.mod_lt s.length (show 0 < 256 by omega)
    simp [wire, getSizeSimple, List.length_take]
    omega
  | .seq xs, h => by
    simp only [Value.textsShort] at h
    have := wireAll_length_lt xs h
    simp [wire, getSizeSimple]
    omega
  | .tuple xs, h => by
    simp only [Value.textsShort] at h
    simpa [wire, getSizeSimple] using wireAll_length_lt xs h
theorem wireAll_length_lt : ∀ xs : List Value, Value.allTextsShort xs = false →
    (wireAll xs).length < getSize xs
  | [], h => by simp [Value.allTextsShort] at h
  | x :: xs, h => by
    simp only [Value.allTextsShort, Bool.and_eq_false_iff] at h
    have h1 := wire_length_le x
    have h2 := wireAll_length_le xs
    simp only [wireAll, getSize, List.length_append]
    rcases h with h | h
    · have := wire_length_lt x h
      omega
    · have := wireAll_length_lt xs h
      omega
end

/-- C22: for every argument list, texts and sequences longer than 255 included, the
constructor is defined, that is, every `data[size++] = c` and every `memcpy` of
`handleArg` (all `first.size()` bytes of a text) stays inside the `getSize(args...)` cells
allocated, these two writes being defined exactly when in bounds; the final size satisfies
`GetSize() ≤ getSize(args...)`, with equality exactly when no text in the arguments has 256
bytes or more. -/
theorem writes_in_bounds (heap : Nat → Byte) (args : List Value) :
    (∃ b, Buffer.construct heap args = some b ∧ b.GetData.length = getSize args ∧
      b.GetSize ≤ getSize args ∧
      (b.GetSize = getSize args ↔ Value.allTextsShort args = true)) ∧
    (∀ (b : Buffer) (c : Byte), (b.put c).isSome = true ↔ b.size < b.data.length) ∧
    (∀ (dst : List Byte) (pos : Nat) (src : List Byte),
      (memcpy dst pos src).isSome = true ↔ pos + src.length ≤ dst.length) := by
  refine ⟨?_, ?_, ?_⟩
  · obtain ⟨b, e, l, sz, _⟩ := construct_spec heap args
    refine ⟨b, e, l, ?_, ?_⟩
    · rw [Buffer.GetSize, sz]
      exact wireAll_length_le args
    · rw [Buffer.GetSize, sz]
      constructor
      · intro h
        cases hs : Value.allTextsShort args with
        | true => rfl
        | false =>
          have := wireAll_length_lt args hs
          omega
      · intro h
        exact wireAll_length_eq args h
  · intro b c
    simp only [Buffer.put]
    split <;> simp [*]
  · intro dst pos src
    simp only [memcpy]
    split <;> simp [*]

/-- C23: for every within-limit value `v` of shape `T`, the data of `Buffer(v)` has exactly
`GetSize()` cells, every position at or past `GetSize()` is out of range, and decoding it
with `T` from cursor 0 is defined (it returns `v` and `GetSize()`): no read of
`retrieveArg` takes the out-of-range branch, the scalar and string branches being
undefined as soon as a byte they need is missing. -/
theorem decode_in_bounds (heap : Nat → Byte) (T : Shape) (v : Value)
    (hs : v.hasShape T = true) (hl : v.withinLimits = true) :
    (∃ b, Buffer.construct heap [v] = some b ∧ b.GetData.length = b.GetSize ∧
      (∀ i, b.GetSize ≤ i → b.GetData[i]? = none) ∧
      retrieveArg T b.GetData 0 = some (v, b.GetSize)) ∧
    (∀ (t : ScalarTy) (D : List Byte) (c : Nat),
      D.length < c + t.sizeof → retrieveScalar t D c = none) ∧
    (∀ (D : List Byte) (c : Nat),
      (∀ L : Byte, D[c]? = some L → D.length < c + 1 + L.val) → retrieveString D c = none) ∧
    (∀ (e : Shape) (D : List Byte) (c : Nat),
      D.length ≤ c → retrieveArg (.seq e) D c = none) := by
  refine ⟨?_, ?_, ?_, ?_⟩
  · obtain ⟨b, e, g, r⟩ := decode_construct heap T v hs hl
    have hb := construct_short heap [v] (allTextsShort_single v hl)
    rw [e] at hb
    have hlen := wireAll_length_eq [v] (allTextsShort_single v hl)
    have hd : b.GetData.length = b.GetSize := by
      cases hb
      simp [Buffer.GetData, Buffer.GetSize, hlen]
    refine ⟨b, e, hd, ?_, r⟩
    intro i hi
    exact List.getElem?_eq_none (by omega)
  · intro t D c h
    cases hr : retrieveScalar t D c with
    | none => rfl
    | some p =>
      obtain ⟨out, c1⟩ := p
      have := (retrieveScalar_cursor t D c out c1 hr).2
      omega
  · intro D c h
    cases hr : retrieveString D c with
    | none => rfl
    | some p =>
      obtain ⟨out, c1⟩ := p
      obtain ⟨L, h0, hfit, _, _⟩ := retrieveString_cursor D c out c1 hr
      have := h L h0
      omega
  · intro e D c h
    simp only [retrieveArg]
    rw [List.getElem?_eq_none h]

theorem decode_in_bounds_witness :
    vec_res3.hasShape vec_res3_type = true ∧ vec_res3.withinLimits = true ∧
      ∃ b, Buffer.construct zeroHeap [vec_res3] = some b ∧ b.GetData.length = b.GetSize ∧
        (∀ i, b.GetSize ≤ i → b.GetData[i]? = none) ∧
        retrieveArg vec_res3_type b.GetData 0 = some (vec_res3, b.GetSize) :=
  ⟨by decide, by decide,
    (decode_in_bounds zeroHeap vec_res3_type vec_res3 (by decide) (by decide)).1⟩

/-! ## Re-encoding what was decoded -/

theorem lead_cons {x : Byte} {l D : List Byte} {c : Nat} (h0 : D[c]? = some x)
    (h : l <+: D.drop (c + 1)) : (x :: l) <+: D.drop c := by
  obtain ⟨hc, hx⟩ := List.getElem?_eq_some_iff.mp h0
  rw [List.drop_eq_getElem_cons hc, hx]
  obtain ⟨t, ht⟩ := h
  exact ⟨t, by rw [← ht]; rfl⟩

theorem lead_append {a l D : List Byte} {c : Nat} (ha : a <+: D.drop c)
    (h : l <+: D.drop (c + a.length)) : (a ++ l) <+: D.drop c := by
  obtain ⟨t, ht⟩ := ha
  have h2 : D.drop (c + a.length) = t := by
    rw [← List.drop_drop, ← ht, List.drop_left]
  rw [h2] at h
  obtain ⟨u, hu⟩ := h
  exact ⟨u, by rw [← ht, ← hu, List.append_assoc]⟩

theorem leBytes_of_rep (t : ScalarTy) (v : Int) (l : List Byte) (hl : l.length = t.sizeof)
    (hr : t.unsignedRep v = leValue l) : (List.range t.sizeof).map (leByte v) = l := by
  have b0 := leByte_val v 0
  have b1 := leByte_val v 1
  have b2 := leByte_val v 2
  have b3 := leByte_val v 3
  simp only [Nat.reduceMul, Nat.reducePow, pow_zero, Int.ediv_one] at b0 b1 b2 b3
  have one : t.sizeof = 1 → (List.range t.sizeof).map (leByte v) = l := by
    intro hs
    rw [hs] at hl
    simp only [ScalarTy.unsignedRep, hs, Nat.reduceMul, Nat.reducePow] at hr
    rw [hs]
    match l, hl with
    | [d0], _ =>
      simp only [leValue] at hr
      have := d0.isLt
      have e0 : leByte v 0 = d0 := Fin.ext (by omega)
      show [leByte v 0] = [d0]
      rw [e0]
  have two : t.sizeof = 2 → (List.range t.sizeof).map (leByte v) = l := by
    intro hs
    rw [hs] at hl
    simp only [ScalarTy.unsignedRep, hs, Nat.reduceMul, Nat.reducePow] at hr
    rw [hs]
    match l, hl with
    | [d0, d1], _ =>
      simp only [leValue] at hr
      have := d0.isLt
      have := d1.isLt
      have e0 : leByte v 0 = d0 := Fin.ext (by omega)
      have e1 : leByte v 1 = d1 := Fin.ext (by omega)
      show [leByte v 0, leByte v 1] = [d0, d1]
      rw [e0, e1]
  have four : t.sizeof = 4 → (List.range t.sizeof).map (leByte v) = l := by
    intro hs
    rw [hs] at hl
    simp only [ScalarTy.unsignedRep, hs, Nat.reduceMul, Nat.reducePow] at hr
    rw [hs]
    match l, hl with
    | [d0, d1, d2, d3], _ =>
      simp only [leValue] at hr
      have := d0.isLt
      have := d1.isLt
      have := d2.isLt
      have := d3.isLt
      have e0 : leByte v 0 = d0 := Fin.ext (by omega)
      have e1 : leByte v 1 = d1 := Fin.ext (by omega)
      have e2 : leByte v 2 = d2 := Fin.ext (by omega)
      have e3 : leByte v 3 = d3 := Fin.ext (by omega)
      show [leByte v 0, leByte v 1, leByte v 2, leByte v 3] = [d0, d1, d2, d3]
      rw [e0, e1, e2, e3]
  cases t
  · exact one rfl
  · exact one rfl
  · exact two rfl
  · exact two rfl
  · exact four rfl
  · exact four rfl

theorem retrieveScalar_sound (t : ScalarTy) (D : List Byte) (c : Nat) (out : Value)
    (c1 : Nat) (h : retrieveScalar t D c = some (out, c1)) :
    ∃ v, out = .scalar t v ∧ t.inRange v = true ∧ c1 = c + t.sizeof ∧
      (List.range t.sizeof).map (leByte v) <+: D.drop c := by
  obtain ⟨hc, hb⟩ := retrieveScalar_cursor t D c out c1 h
  obtain ⟨v, e, hr, hv⟩ := retrieveScalar_any t D c hb
  rw [e] at h
  simp only [Option.some.injEq, Prod.mk.injEq] at h
  refine ⟨v, h.1.symm, hr, hc, ?_⟩
  have hl : ((D.drop c).take t.sizeof).length = t.sizeof := by
    rw [List.length_take, List.length_drop]
    omega
  rw [leBytes_of_rep t v _ hl hv]
  exact List.take_prefix _ _

theorem retrieveString_sound (D : List Byte) (c : Nat) (out : Value) (c1 : Nat)
    (h : retrieveString D c = some (out, c1)) :
    out.hasShape .text = true ∧ out.withinLimits = true ∧ c1 = c + (wire out).length ∧
      wire out <+: D.drop c := by
  obtain ⟨L, h0, hfit, rfl, rfl⟩ := retrieveString_cursor D c out c1 h
  have hL := L.isLt
  have hlen : ((D.drop (c + 1)).take L.val).length = L.val := by
    rw [List.length_take, List.length_drop]
    omega
  have hm : L.val % 256 = L.val := Nat.mod_eq_of_lt hL
  have hc : castChar (L.val : Nat) = L := Fin.ext (by rw [castChar_val_nat, hm])
  have hw : wire (.text ((D.drop (c + 1)).take L.val))
      = L :: (D.drop (c + 1)).take L.val := by
    simp only [wire, hlen, hm, hc]
    rw [List.take_take, Nat.min_self]
  refine ⟨rfl, ?_, ?_, ?_⟩
  · simp only [Value.withinLimits, hlen, decide_eq_true_eq]
    omega
  · rw [hw]
    simp only [List.length_cons, hlen]
    omega
  · rw [hw]
    exact lead_cons h0 (List.take_prefix _ _)

theorem retrieveLoop_sound (e : Shape) (D : List Byte)
    (hf : ∀ a x a1, retrieveArg e D a = some (x, a1) →
      x.hasShape e = true ∧ x.withinLimits = true ∧ a1 = a + (wire x).length ∧
        wire x <+: D.drop a) :
    ∀ (n c : Nat) (xs : List Value) (c1 : Nat),
      retrieveLoop (retrieveArg e D) n c = some (xs, c1) →
      xs.length = n ∧ Value.allHaveShape xs e = true ∧ Value.allWithinLimits xs = true ∧
        c1 = c + (wireAll xs).length ∧ wireAll xs <+: D.drop c
  | 0, c, xs, c1, h => by
    simp only [retrieveLoop, Option.some.injEq, Prod.mk.injEq] at h
    obtain ⟨rfl, rfl⟩ := h
    simp [Value.allHaveShape, Value.allWithinLimits, wireAll]
  | n + 1, c, xs, c1, h => by
    simp only [retrieveLoop] at h
    cases hx : retrieveArg e D c with
    | none => simp [hx] at h
    | some p =>
      obtain ⟨x, a1⟩ := p
      simp only [hx] at h
      cases hr : retrieveLoop (retrieveArg e D) n a1 with
      | none => simp [hr] at h
      | some q =>
        obtain ⟨ys, c2⟩ := q
        simp only [hr, Option.some.injEq, Prod.mk.injEq] at h
        obtain ⟨rfl, rfl⟩ := h
        obtain ⟨s1, l1, rfl, p1⟩ := hf c x a1 hx
        obtain ⟨n2, s2, l2, rfl, p2⟩ := retrieveLoop_sound e D hf n _ ys c2 hr
        refine ⟨by simp [n2], by simp [Value.allHaveShape, s1, s2],
          by simp [Value.allWithinLimits, l1, l2], by simp [wireAll, Nat.add_assoc], ?_⟩
        simp only [wireAll]
        exact lead_append p1 p2

mutual
theorem retrieveArg_sound : ∀ (T : Shape) (D : List Byte) (c : Nat) (out : Value) (c1 : Nat),
    retrieveArg T D c = some (out, c1) →
    out.hasShape T = true ∧ out.withinLimits = true ∧ c1 = c + (wire out).length ∧
      wire out <+: D.drop c
  | .scalar t, D, c, out, c1, h => by
    simp only [retrieveArg] at h
    obtain ⟨v, rfl, hr, rfl, hp⟩ := retrieveScalar_sound t D c out c1 h
    exact ⟨by simp [Value.hasShape, hr], rfl, by simp [wire], by simpa [wire] using hp⟩
  | .text, D, c, out, c1, h => by
    simp only [retrieveArg] at h
    exact retrieveString_sound D c out c1 h
  | .seq e, D, c, out, c1, h => by
    simp only [retrieveArg] at h
    cases hk : D[c]? with
    | none => simp [hk] at h
    | some k =>
      simp only [hk] at h
      cases hr : retrieveLoop (retrieveArg e D) k.val (c + 1) with
      | none => simp [hr] at h
      | some q =>
        obtain ⟨xs, c2⟩ := q
        simp only [hr, Option.some.injEq, Prod.mk.injEq] at h
        obtain ⟨rfl, rfl⟩ := h
        obtain ⟨n2, s2, l2, rfl, p2⟩ := retrieveLoop_sound e D
          (fun a x a1 ha => retrieveArg_sound e D a x a1 ha) k.val (c + 1) xs c2 hr
        have hk2 := k.isLt
        have hc : castChar (xs.length : Nat) = k :=
          Fin.ext (by rw [castChar_val_nat, n2, Nat.mod_eq_of_lt hk2])
        refine ⟨by simpa [Value.hasShape] using s2, ?_, ?_, ?_⟩
        · simp only [Value.withinLimits, l2, Bool.and_true, decide_eq_true_eq]
          omega
        · simp only [wire, List.length_cons]
          omega
        · simp only [wire, hc]
          exact lead_cons hk p2
  | .tuple ss, D, c, out, c1, h => by
    simp only [retrieveArg] at h
    cases hr : retrieveSlots ss D c with
    | none => simp [hr] at h
    | some q =>
      obtain ⟨xs, c2⟩ := q
      simp only [hr, Option.some.injEq, Prod.mk.injEq] at h
      obtain ⟨rfl, rfl⟩ := h
      obtain ⟨s2, l2, e2, p2⟩ := retrieveSlots_sound ss D c xs c2 hr
      exact ⟨by simpa [Value.hasShape] using s2, by simpa [Value.withinLimits] using l2,
        by simpa [wire] using e2, by simpa [wire] using p2⟩
theorem retrieveSlots_sound : ∀ (ss : List Shape) (D : List Byte) (c : Nat)
    (xs : List Value) (c1 : Nat), retrieveSlots ss D c = some (xs, c1) →
    Value.haveShapes xs ss = true ∧ Value.allWithinLimits xs = true ∧
      c1 = c + (wireAll xs).length ∧ wireAll xs <+: D.drop c
  | [], D, c, xs, c1, h => by
    simp only [retrieveSlots, Option.some.injEq, Prod.mk.injEq] at h
    obtain ⟨rfl, rfl⟩ := h
    simp [Value.haveShapes, Value.allWithinLimits, wireAll]
  | s :: ss, D, c, xs, c1, h => by
    simp only [retrieveSlots] at h
    cases hx : retrieveArg s D c with
    | none => simp [hx] at h
    | some p =>
      obtain ⟨x, a1⟩ := p
      simp only [hx] at h
      cases hr : retrieveSlots ss D a1 with
      | none => simp [hr] at h
      | some q =>
        obtain ⟨ys, c2⟩ := q
        simp only [hr, Option.some.injEq, Prod.mk.injEq] at h
        obtain ⟨rfl, rfl⟩ := h
        obtain ⟨s1, l1, rfl, p1⟩ := retrieveArg_sound s D c x a1 hx
        obtain ⟨s2, l2, rfl, p2⟩ := retrieveSlots_sound ss D _ ys c2 hr
        refine ⟨by simp [Value.haveShapes, s1, s2], by simp [Value.allWithinLimits, l1, l2],
          by simp [wireAll, Nat.add_assoc], ?_⟩
        simp only [wireAll]
        exact lead_append p1 p2
end

/-- C24: for every shape and every byte buffer on which decoding from cursor 0 is defined,
yielding the value `v` and `k` bytes consumed, `v` has the shape and is within the limits
(every text and sequence in it has at most 255 items), `k` bytes exist, and `Buffer(v)` has
size `k` and exactly the first `k` bytes of the buffer as its data. -/
theorem reencode_decoded (heap : Nat → Byte) (T : Shape) (D : List Byte) (v : Value)
    (k : Nat) (h : GetArgumentsAndSize T D = some (v, k)) :
    v.hasShape T = true ∧ v.withinLimits = true ∧ k ≤ D.length ∧
      ∃ b, Buffer.construct heap [v] = some b ∧ b.GetSize = k ∧ b.GetData = D.take k := by
  obtain ⟨hs, hl, hk, hp⟩ := retrieveArg_sound T D 0 v k h
  simp only [Nat.zero_add, List.drop_zero] at hk hp
  have hlen := wire_length_eq v (textsShort_of_withinLimits v hl)
  refine ⟨hs, hl, ?_, _, construct_short heap [v] (allTextsShort_single v hl), ?_, ?_⟩
  · rw [hk]
    exact hp.length_le
  · simp [Buffer.GetSize, getSize_single, hk, hlen]
  · simp only [Buffer.GetData, wireAll_single, hk]
    exact List.prefix_iff_eq_take.mp hp

theorem reencode_decoded_witness :
    GetArgumentsAndSize vec_res3_type (vec_res3_bytes ++ helloGuys) = some (vec_res3, 17) ∧
      vec_res3.hasShape vec_res3_type = true ∧ vec_res3.withinLimits = true ∧
      17 ≤ (vec_res3_bytes ++ helloGuys).length ∧
      ∃ b, Buffer.construct zeroHeap [vec_res3] = some b ∧ b.GetSize = 17 ∧
        b.GetData = (vec_res3_bytes ++ helloGuys).take 17 :=
  ⟨rfl, reencode_decoded zeroHeap vec_res3_type (vec_res3_bytes ++ helloGuys) vec_res3 17 rfl⟩

/-! ## Several arguments as one tuple -/

/-- C25: for every non-empty argument list, `Buffer(a1, ..., an)` is the same buffer (same
size, same bytes) as `Buffer(tuple(a1, ..., an))`; hence, when the arguments have the
shapes `T1 .. Tn` and are within the limits, `GetArguments<tuple<T1..Tn>>` on its data
returns the tuple `(a1, ..., an)`. -/
theorem multi_argument_is_tuple (heap : Nat → Byte) (args : List Value) (_hne : args ≠ []) :
    (∃ b, Buffer.construct heap args = some b ∧
      Buffer.construct heap [.tuple args] = some b) ∧
    (∀ Ts : List Shape, Value.haveShapes args Ts = true →
      Value.allWithinLimits args = true →
      ∃ b, Buffer.construct heap args = some b ∧
        GetArguments (.tuple Ts) b.GetData = some (.tuple args)) := by
  have heq : Buffer.construct heap [.tuple args] = Buffer.construct heap args := by
    simp only [Buffer.construct, getSize, getSizeSimple, Nat.add_zero, handleArg, handleFirst]
    cases handleArg args _ <;> rfl
  constructor
  · obtain ⟨b, e, _⟩ := construct_spec heap args
    exact ⟨b, e, by rw [heq, e]⟩
  · intro Ts hs hl
    obtain ⟨b, e, _, r⟩ := decode_construct heap (.tuple Ts) (.tuple args)
      (by simpa [Value.hasShape] using hs) (by simpa [Value.withinLimits] using hl)
    rw [heq] at e
    exact ⟨b, e, by simp [GetArguments, r]⟩

theorem multi_argument_is_tuple_witness :
    [Value.scalar .int8 0x12, Value.text hello] ≠ [] ∧
      (∃ b, Buffer.construct zeroHeap [.scalar .int8 0x12, .text hello] = some b ∧
        Buffer.construct zeroHeap [.tuple [.scalar .int8 0x12, .text hello]] = some b) ∧
      (∀ Ts : List Shape,
        Value.haveShapes [.scalar .int8 0x12, .text hello] Ts = true →
        Value.allWithinLimits [.scalar .int8 0x12, .text hello] = true →
        ∃ b, Buffer.construct zeroHeap [.scalar .int8 0x12, .text hello] = some b ∧
          GetArguments (.tuple Ts) b.GetData
            = some (.tuple [.scalar .int8 0x12, .text hello])) :=
  ⟨by simp, multi_argument_is_tuple zeroHeap [.scalar .int8 0x12, .text hello] (by simp)⟩

end Buffer
